import Mathlib

set_option maxHeartbeats 1000000
set_option maxRecDepth 4000

/-!
# Bit-Tracking Dead Code Elimination: a shallow embedding

This file embeds the core of the BDCE pass (`lib/Transforms/Scalar/BDCE.cpp`):
the function `bitTrackingDCE` (scan-and-trivialize with deferred removal) and
its helper `clearAssumptionsOfUsers` (the worklist propagation that drops
poison-generating flags of users of a trivialized instruction).

IR values are modelled as references to instructions (by numeric id) or integer
constants.  An instruction carries its result type (integer flag plus bit
width), a side-effect flag, its operand list (its non-metadata uses of other
values), the poison-generating flags (nsw / nuw / exact) and an opaque
metadata field.  A function is a list of instructions together with the
non-instruction users of values (e.g. constant expressions) and the metadata
uses of values, which are tracked outside the use list.

The demanded-bits analysis is external to the translated source; it is
modelled as an oracle supplying a demanded mask per instruction id and the
`isInstructionDead` predicate.  `getDemandedBits` returns an `APInt` of the
instruction's bit width, modelled as a natural number reduced mod `2 ^ width`.

Ghost instrumentation (the `pops` and `qlog` fields of the worklist state and
the `log` field of the scan state) records each flag-clearing event and each
oracle query performed by the code, in the order the source performs them;
it feeds no decision of the algorithm.

The externally-visible check of the propagation asserts that it is only
invoked on integer-typed instructions (a fatal contract violation otherwise);
a non-integer user is a hard propagation boundary per the source's comment.
The assert's condition is `intTyAt`, checked over the whole query log by
`scanRespectsAssert`, and `scan_assert_ok_of_sound` proves the assert cannot
fire when the oracle meets the modelled demanded-bits contract.
-/

/-- An IR value reference: either the result of an instruction (by id) or an
integer constant of a given bit width. -/
inductive Val where
  | instr (id : Nat)
  | const (width : Nat) (value : Nat)
deriving DecidableEq

/-- An instruction: numeric identity, result type (integer flag and bit
width), side-effect flag, operand list, poison-generating flags and an opaque
metadata/assumption field. -/
structure Instr where
  id : Nat
  intTy : Bool
  width : Nat
  sideEffects : Bool
  operands : List Val
  nsw : Bool
  nuw : Bool
  exactFlag : Bool
  metadata : Nat
deriving DecidableEq

/-- A function body: its instruction list in program order, the
non-instruction users of values, and the metadata uses of values (not part of
the use list). -/
structure Func where
  insts : List Instr
  otherUsers : List (Nat × Val)
  mdUses : List (Nat × Val)
deriving DecidableEq

/-- The demanded-bits oracle interface (`DemandedBits`): the raw demanded mask
per instruction id, and `isInstructionDead`. -/
structure DemandedBits where
  demanded : Nat → Nat
  dead : Nat → Bool

/-- The ids of the instructions of a function, in program order. -/
def instIds (F : Func) : List Nat := F.insts.map (fun I => I.id)

/-- Look up the instruction with a given id. -/
def getInst (F : Func) (i : Nat) : Option Instr := F.insts.find? (fun I => decide (I.id = i))

/-- One entry of a use list: the user is an instruction or not. -/
inductive UserRef where
  | inst (id : Nat)
  | other (id : Nat)
deriving DecidableEq

/-- The use list of the value computed by instruction `v`: one entry per
non-metadata use (an operand slot of an instruction, or a non-instruction
user), mirroring `Value::users()`. -/
def userRefs (F : Func) (v : Nat) : List UserRef :=
  (F.insts.flatMap
    (fun J => (J.operands.filter (fun o => decide (o = Val.instr v))).map
      (fun _ => UserRef.inst J.id)))
  ++ (F.otherUsers.filter (fun p => decide (p.2 = Val.instr v))).map
      (fun p => UserRef.other p.1)

/-- `Value::use_empty()` for the value of instruction `v`. -/
def useEmptyB (F : Func) (v : Nat) : Bool := (userRefs F v).isEmpty

/-- `DB.getDemandedBits(I)`: an `APInt` of `I`'s bit width, as a natural
number below `2 ^ I.width`. -/
def getDemandedBits (DB : DemandedBits) (I : Instr) : Nat :=
  DB.demanded I.id % 2 ^ I.width

/-- `DB.getDemandedBits(I).isAllOnesValue()`: the externally-visible test of
`clearAssumptionsOfUsers`. -/
def isExtVisible (DB : DemandedBits) (I : Instr) : Bool :=
  decide (getDemandedBits DB I = 2 ^ I.width - 1)

/-- The externally-visible test applied to the instruction with id `k`.  The
source asserts that only integer-typed instructions are examined here
(`assert(I->getType()->isIntegerTy())`; per the spec a demanded-bits query on
a non-integer-typed instruction in this asserting context is a fatal contract
violation), and its accompanying comment states that any conversion between
an integer and a non-integer value demands all of the bits, which "will
cause us to stop looking down the use/def chain": a non-integer user is a
hard propagation boundary.  The explicit `true` branch models that boundary;
`intTyAt` below records the assert's condition itself, and
`scan_assert_ok_of_sound` shows the assert cannot fire under the modelled
oracle contract.  (Absent ids are treated as visible; they never occur in a
use list.) -/
def extvisAt (F : Func) (DB : DemandedBits) (k : Nat) : Bool :=
  match getInst F k with
  | some K => if K.intTy then isExtVisible DB K else true
  | none => true

/-- The condition of the assert inside `isExternallyVisible` at id `k`: the
examined id must denote an integer-typed instruction. -/
def intTyAt (F : Func) (k : Nat) : Bool :=
  match getInst F k with
  | some K => K.intTy
  | none => false

/-- `Instruction::dropPoisonGeneratingFlags()`: clear nsw, nuw and exact. -/
def Instr.dropFlags (I : Instr) : Instr :=
  { I with nsw := false, nuw := false, exactFlag := false }

/-- Drop the poison-generating flags of the instruction with id `j`. -/
def clearFlagsIn (F : Func) (j : Nat) : Func :=
  { F with insts := F.insts.map (fun I => if I.id = j then I.dropFlags else I) }

/-- Drop the poison-generating flags of every instruction whose id lies in
`L` (specification-side description of the propagation's total effect). -/
def clearFlagsOn (F : Func) (L : List Nat) : Func :=
  { F with insts := F.insts.map (fun I => if I.id ∈ L then I.dropFlags else I) }

/-- The instruction users of the value of `v` that are not externally
visible: the worklist-eligible users. -/
def eligOf (F : Func) (DB : DemandedBits) (v : Nat) : List Nat :=
  ((userRefs F v).filterMap (fun u => match u with
      | UserRef.inst j => some j
      | UserRef.other _ => none)).filter (fun k => !(extvisAt F DB k))

/-- State of the propagation worklist loop.  `work` is the stack (head = top,
so pushing conses and popping takes the head, matching `push_back` /
`pop_back_val`).  `pops` and `qlog` are ghost instrumentation: each popped id
(one flag-clearing event each) and each id the oracle is queried on. -/
structure WLState where
  F : Func
  work : List Nat
  visited : List Nat
  pops : List Nat
  qlog : List Nat
deriving DecidableEq

/-- Push a list of ids one by one (`push_back` each, later pushes popped
first). -/
def pushAll (w : List Nat) (ks : List Nat) : List Nat :=
  ks.foldl (fun w k => k :: w) w

/-- Seeding loop of `clearAssumptionsOfUsers`: every instruction user of `v`
is queried for its demanded bits, and the ones that are not externally
visible are pushed. -/
def wlInit (F : Func) (DB : DemandedBits) (v : Nat) : WLState :=
  let instUsers := (userRefs F v).filterMap (fun u => match u with
      | UserRef.inst j => some j
      | UserRef.other _ => none)
  { F := F
    work := pushAll [] (instUsers.filter (fun k => !(extvisAt F DB k)))
    visited := []
    pops := []
    qlog := instUsers }

/-- One iteration of the propagation loop: pop `J`, drop its
poison-generating flags, insert it into the visited set, then push every
instruction user `K` of `J` with `K` not visited and not externally visible
(the oracle is queried exactly on the not-visited instruction users). -/
def wlStep (DB : DemandedBits) (s : WLState) : WLState :=
  match s.work with
  | [] => s
  | j :: rest =>
    let F := clearFlagsIn s.F j
    let V := j :: s.visited
    let queried := (userRefs F j).filterMap (fun u => match u with
        | UserRef.inst k => if k ∈ V then none else some k
        | UserRef.other _ => none)
    let pushes := queried.filter (fun k => !(extvisAt F DB k))
    { F := F
      work := pushAll rest pushes
      visited := V
      pops := s.pops ++ [j]
      qlog := s.qlog ++ queried }

/-- Total number of use edges of the function (operand slots plus
non-instruction uses); bounds the number of pushes any single pop can make. -/
def edgeBound (F : Func) : Nat :=
  (F.insts.map (fun J => J.operands.length)).sum + F.otherUsers.length

/-- Fuel that always suffices for the propagation loop to drain. -/
def wlFuel (F : Func) : Nat := (edgeBound F + 1) * (F.insts.length + 1)

/-- The whole propagation run of `clearAssumptionsOfUsers` on the value of
instruction `v`, with instrumentation. -/
def clearAssumptionsRun (F : Func) (DB : DemandedBits) (v : Nat) : WLState :=
  (wlStep DB)^[wlFuel F] (wlInit F DB v)

/-- `clearAssumptionsOfUsers(I, DB)`: the resulting function body. -/
def clearAssumptionsOfUsers (F : Func) (DB : DemandedBits) (v : Nat) : Func :=
  (clearAssumptionsRun F DB v).F

/-- Ghost record of one oracle query made by the pass: a demanded-bits query
from the scan loop, an `isInstructionDead` query from the scan loop, or a
demanded-bits query from inside the propagation component. -/
inductive Query where
  | scanDemanded (id : Nat)
  | scanDead (id : Nat)
  | propDemanded (id : Nat)
deriving DecidableEq

/-- State threaded through the scan of `bitTrackingDCE`: the (mutated)
function, the deferred-removal worklist, the change flag, and the ghost
oracle-query log. -/
structure ScanState where
  F : Func
  queue : List Nat
  changed : Bool
  log : List Query
deriving DecidableEq

/-- Substitute the value of instruction `v` by `z`. -/
def substVal (v : Nat) (z : Val) (x : Val) : Val :=
  if x = Val.instr v then z else x

/-- `Value::replaceNonMetadataUsesWith`: rewrite every operand slot and every
non-instruction use of `v` to `z`; metadata uses are not touched. -/
def replaceNonMetadataUsesWith (F : Func) (v : Nat) (z : Val) : Func :=
  { F with
    insts := F.insts.map (fun J => { J with operands := J.operands.map (substVal v z) })
    otherUsers := F.otherUsers.map (fun p => (p.1, substVal v z p.2)) }

/-- `Instruction::dropAllReferences()` on the instruction with id `i`: detach
its operand list. -/
def dropAllReferences (F : Func) (i : Nat) : Func :=
  { F with insts := F.insts.map (fun J => if J.id = i then { J with operands := [] } else J) }

/-- First half of the scan loop body: if `I` is integer typed, query its
demanded mask; when the mask is all dead, run the propagation on it, then
replace every non-metadata use of it with the zero constant of its type and
set the change flag. -/
def trivStep (DB : DemandedBits) (s : ScanState) (i : Nat) (I : Instr) : ScanState :=
  if I.intTy then
    let s0 : ScanState := { s with log := s.log ++ [Query.scanDemanded i] }
    if getDemandedBits DB I = 0 then
      let wl := clearAssumptionsRun s0.F DB i
      { s0 with
        F := replaceNonMetadataUsesWith wl.F i (Val.const I.width 0)
        changed := true
        log := s0.log ++ wl.qlog.map Query.propDemanded }
    else s0
  else s

/-- Second half of the scan loop body: query `isInstructionDead`; if dead,
drop the instruction's operand references, append it to the deferred-removal
worklist and set the change flag. -/
def deadStep (DB : DemandedBits) (s : ScanState) (i : Nat) : ScanState :=
  let s2 : ScanState := { s with log := s.log ++ [Query.scanDead i] }
  if DB.dead i then
    { s2 with
      F := dropAllReferences s2.F i
      queue := s2.queue ++ [i]
      changed := true }
  else s2

/-- One iteration of the scan loop of `bitTrackingDCE` on instruction `i`:
skip if it may have side effects and is use-empty; else trivialize it to zero
when it is integer typed with an all-dead demanded mask (propagation first,
then `replaceNonMetadataUsesWith` of the zero constant of its type); then,
regardless, if the oracle reports it fully dead, drop its references and
append it to the deferred-removal worklist. -/
def processInst (DB : DemandedBits) (s : ScanState) (i : Nat) : ScanState :=
  match getInst s.F i with
  | none => s
  | some I =>
    if I.sideEffects && useEmptyB s.F i then s
    else deadStep DB (trivStep DB s i I) i

/-- The scan phase of `bitTrackingDCE`: fold the per-instruction step over
the instruction list in program order. -/
def bdceScan (DB : DemandedBits) (F : Func) : ScanState :=
  List.foldl (processInst DB) { F := F, queue := [], changed := false, log := [] } (instIds F)

/-- The deferred-removal phase: erase each queued instruction from the
function, in queue order. -/
def eraseQueue (F : Func) (q : List Nat) : Func :=
  List.foldl (fun F i => { F with insts := F.insts.filter (fun J => decide (¬ J.id = i)) }) F q

/-- The whole of `bitTrackingDCE`, with instrumentation. -/
def bdceRun (F : Func) (DB : DemandedBits) : ScanState :=
  let s := bdceScan DB F
  { s with F := eraseQueue s.F s.queue }

/-- `bitTrackingDCE(F, DB)`: the mutated function and the change flag. -/
def bitTrackingDCE (F : Func) (DB : DemandedBits) : Func × Bool :=
  ((bdceRun F DB).F, (bdceRun F DB).changed)

/-- Well-formed function: instruction ids are distinct. -/
def wfIds (F : Func) : Prop := (instIds F).Nodup

/-- Modelled from the spec: the contract of the external demanded-bits
analysis (its computation is not part of the translated source).  Per the
spec's glossary a fully dead instruction "performs no required side effect",
and a live consumer keeps the values it observes from being fully dead, so an
instruction reported dead has no side effects, and an instruction not
reported dead has no operand that is reported dead. -/
def oracleConsistentB (F : Func) (DB : DemandedBits) : Bool :=
  F.insts.all (fun J =>
    (if DB.dead J.id then !J.sideEffects else true) &&
    (if DB.dead J.id then true
     else J.operands.all (fun v => match v with
        | Val.instr k => !DB.dead k
        | Val.const _ _ => true)))

/-- Modelled from the spec: validity of a (re)computed demanded-bits oracle
for a function.  Per the spec's glossary a fully dead instruction is "one
whose result is unobserved by any live consumer and which performs no
required side effect"; hence a use-empty instruction without side effects
must be reported dead, and a dead instruction has no side effects. -/
def oracleValidB (F : Func) (DB : DemandedBits) : Bool :=
  F.insts.all (fun I =>
    (if useEmptyB F I.id && !I.sideEffects then DB.dead I.id else true) &&
    (if DB.dead I.id then !I.sideEffects else true))

/-- Modelled from the spec: soundness of the demanded-bits analysis toward
consumers it does not look through (its computation is not part of the
translated source).  A side-effecting consumer observes its operand values in
full ("bits are demanded by the store operand position", scenario B), and
"any conversion between an integer value and a non-integer value should
demand all of the bits" (the propagation's boundary precondition); IR integer
types have positive bit width.  Hence every instruction value consumed by a
side-effecting or non-integer-typed instruction carries an all-ones demanded
mask. -/
def oracleSoundB (F : Func) (DB : DemandedBits) : Bool :=
  F.insts.all (fun V => !V.intTy || decide (0 < V.width)) &&
  F.insts.all (fun V => F.insts.all (fun K =>
    if (K.sideEffects || !K.intTy) && decide (Val.instr V.id ∈ K.operands)
    then decide (getDemandedBits DB V = 2 ^ V.width - 1)
    else true))

/-- Every demanded-bits query the propagation components of one whole scan
performed targets an integer-typed instruction: the run respects the assert
of `isExternallyVisible` (result types and ids are preserved by the scan, so
the original function is the right one to check against). -/
def scanRespectsAssert (F : Func) (DB : DemandedBits) : Bool :=
  (bdceRun F DB).log.all (fun q => match q with
    | Query.propDemanded k => intTyAt F k
    | Query.scanDemanded _ => true
    | Query.scanDead _ => true)

/-- Reachability through the use graph from the value of instruction `i`,
along chains of worklist-eligible (instruction, not externally visible)
users: the set of instructions the propagation is specified to walk. -/
inductive ReachElig (F : Func) (DB : DemandedBits) (i : Nat) : Nat → Prop where
  | seed : ∀ j, j ∈ eligOf F DB i → ReachElig F DB i j
  | step : ∀ j k, ReachElig F DB i j → k ∈ eligOf F DB j → ReachElig F DB i k

/-! ## Basic list facts about the worklist primitives -/

theorem pushAll_eq (w ks : List Nat) : pushAll w ks = ks.reverse ++ w := by
  induction ks generalizing w with
  | nil => simp [pushAll]
  | cons k ks ih =>
    show pushAll (k :: w) ks = (k :: ks).reverse ++ w
    rw [ih]
    simp

theorem mem_pushAll {x : Nat} {w ks : List Nat} :
    x ∈ pushAll w ks ↔ x ∈ ks ∨ x ∈ w := by
  rw [pushAll_eq, List.mem_append, List.mem_reverse]

theorem length_pushAll (w ks : List Nat) :
    (pushAll w ks).length = ks.length + w.length := by
  rw [pushAll_eq]
  simp

theorem filterMap_instProj_mem (l : List UserRef) (k : Nat) :
    k ∈ l.filterMap (fun u => match u with
        | UserRef.inst j => some j
        | UserRef.other _ => none) ↔ UserRef.inst k ∈ l := by
  induction l with
  | nil => simp
  | cons u tl ih =>
    cases u with
    | inst j => simp [List.filterMap_cons, ih, eq_comm]
    | other m => simp [List.filterMap_cons, ih]

theorem filterMap_instVis_mem (l : List UserRef) (V : List Nat) (k : Nat) :
    k ∈ l.filterMap (fun u => match u with
        | UserRef.inst j => if j ∈ V then none else some j
        | UserRef.other _ => none) ↔ UserRef.inst k ∈ l ∧ k ∉ V := by
  induction l with
  | nil => simp
  | cons u tl ih =>
    cases u with
    | inst j =>
      by_cases hj : j ∈ V
      · simp only [List.filterMap_cons, hj, if_pos, ih, List.mem_cons, UserRef.inst.injEq]
        constructor
        · rintro ⟨h1, h2⟩
          exact ⟨Or.inr h1, h2⟩
        · rintro ⟨h1, h2⟩
          refine ⟨h1.resolve_left ?_, h2⟩
          intro he
          subst he
          exact absurd hj h2
      · simp only [List.filterMap_cons, hj, if_neg, not_false_iff, List.mem_cons,
          UserRef.inst.injEq, ih]
        constructor
        · rintro (h | ⟨h1, h2⟩)
          · subst h
            exact ⟨Or.inl rfl, hj⟩
          · exact ⟨Or.inr h1, h2⟩
        · rintro ⟨h1 | h1, h2⟩
          · exact Or.inl h1
          · exact Or.inr ⟨h1, h2⟩
    | other m => simp [List.filterMap_cons, ih]

/-! ## Instructions-only rewrites that keep everything but flags -/

/-- A rewrite of instructions that can change only the poison-generating
flags. -/
structure FlagOnly (g : Instr → Instr) : Prop where
  idEq : ∀ I, (g I).id = I.id
  intTyEq : ∀ I, (g I).intTy = I.intTy
  widthEq : ∀ I, (g I).width = I.width
  sideEffectsEq : ∀ I, (g I).sideEffects = I.sideEffects
  operandsEq : ∀ I, (g I).operands = I.operands
  metadataEq : ∀ I, (g I).metadata = I.metadata

theorem flagOnly_clearIn (j : Nat) :
    FlagOnly (fun I => if I.id = j then I.dropFlags else I) := by
  constructor <;> intro I <;> by_cases h : I.id = j <;> simp [h, Instr.dropFlags]

theorem flagOnly_clearOn (L : List Nat) :
    FlagOnly (fun I => if I.id ∈ L then I.dropFlags else I) := by
  constructor <;> intro I <;> by_cases h : I.id ∈ L <;> simp [h, Instr.dropFlags]

theorem userRefs_mapF (F : Func) (g : Instr → Instr) (h : FlagOnly g) (v : Nat) :
    userRefs { F with insts := F.insts.map g } v = userRefs F v := by
  unfold userRefs
  simp only [List.flatMap_map]
  have he : (fun I => (((g I).operands.filter (fun o => decide (o = Val.instr v))).map
        (fun _ => UserRef.inst (g I).id)))
      = (fun I => ((I.operands.filter (fun o => decide (o = Val.instr v))).map
        (fun _ => UserRef.inst I.id))) := by
    funext I
    rw [h.operandsEq, h.idEq]
  rw [he]

theorem getInst_mapF (F : Func) (g : Instr → Instr) (h : FlagOnly g) (i : Nat) :
    getInst { F with insts := F.insts.map g } i = Option.map g (getInst F i) := by
  unfold getInst
  rw [List.find?_map]
  have he : ((fun I => decide (I.id = i)) ∘ g) = (fun I => decide (I.id = i)) := by
    funext I
    simp [h.idEq]
  rw [he]

theorem extvisAt_mapF (F : Func) (g : Instr → Instr) (h : FlagOnly g)
    (DB : DemandedBits) (k : Nat) :
    extvisAt { F with insts := F.insts.map g } DB k = extvisAt F DB k := by
  unfold extvisAt
  rw [getInst_mapF F g h]
  cases hK : getInst F k with
  | none => rfl
  | some K => simp [isExtVisible, getDemandedBits, h.idEq, h.widthEq, h.intTyEq]

theorem eligOf_mapF (F : Func) (g : Instr → Instr) (h : FlagOnly g)
    (DB : DemandedBits) (v : Nat) :
    eligOf { F with insts := F.insts.map g } DB v = eligOf F DB v := by
  unfold eligOf
  rw [userRefs_mapF F g h]
  congr 1
  funext k
  rw [extvisAt_mapF F g h]

theorem instIds_mapF (F : Func) (g : Instr → Instr) (h : FlagOnly g) :
    instIds { F with insts := F.insts.map g } = instIds F := by
  unfold instIds
  rw [List.map_map]
  congr 1
  funext I
  exact h.idEq I

theorem edgeBound_mapF (F : Func) (g : Instr → Instr) (h : FlagOnly g) :
    edgeBound { F with insts := F.insts.map g } = edgeBound F := by
  unfold edgeBound
  rw [List.map_map]
  have he : ((fun J => J.operands.length) ∘ g) = (fun J : Instr => J.operands.length) := by
    funext I
    simp [h.operandsEq]
  rw [he]

theorem useEmptyB_mapF (F : Func) (g : Instr → Instr) (h : FlagOnly g) (v : Nat) :
    useEmptyB { F with insts := F.insts.map g } v = useEmptyB F v := by
  unfold useEmptyB
  rw [userRefs_mapF F g h]

theorem clearFlagsOn_nil (F : Func) : clearFlagsOn F [] = F := by
  unfold clearFlagsOn
  simp

theorem userRefs_clearFlagsOn (F : Func) (L : List Nat) (v : Nat) :
    userRefs (clearFlagsOn F L) v = userRefs F v :=
  userRefs_mapF F _ (flagOnly_clearOn L) v

theorem extvisAt_clearFlagsOn (F : Func) (L : List Nat) (DB : DemandedBits) (k : Nat) :
    extvisAt (clearFlagsOn F L) DB k = extvisAt F DB k :=
  extvisAt_mapF F _ (flagOnly_clearOn L) DB k

theorem eligOf_clearFlagsOn (F : Func) (L : List Nat) (DB : DemandedBits) (v : Nat) :
    eligOf (clearFlagsOn F L) DB v = eligOf F DB v :=
  eligOf_mapF F _ (flagOnly_clearOn L) DB v

theorem instIds_clearFlagsOn (F : Func) (L : List Nat) :
    instIds (clearFlagsOn F L) = instIds F :=
  instIds_mapF F _ (flagOnly_clearOn L)

theorem edgeBound_clearFlagsOn (F : Func) (L : List Nat) :
    edgeBound (clearFlagsOn F L) = edgeBound F :=
  edgeBound_mapF F _ (flagOnly_clearOn L)

theorem clearFlagsIn_clearFlagsOn (F : Func) (j : Nat) (L : List Nat) :
    clearFlagsIn (clearFlagsOn F L) j = clearFlagsOn F (j :: L) := by
  unfold clearFlagsIn clearFlagsOn
  simp only [List.map_map]
  have he : ((fun I => if I.id = j then I.dropFlags else I) ∘
        fun I => if I.id ∈ L then I.dropFlags else I)
      = (fun I : Instr => if I.id ∈ j :: L then I.dropFlags else I) := by
    funext I
    simp only [Function.comp]
    by_cases hL : I.id ∈ L
    · rw [if_pos hL, if_pos (List.mem_cons.mpr (Or.inr hL))]
      show (if I.dropFlags.id = j then I.dropFlags.dropFlags else I.dropFlags) = I.dropFlags
      by_cases hj : I.dropFlags.id = j
      · rw [if_pos hj]
        rfl
      · rw [if_neg hj]
    · rw [if_neg hL]
      by_cases hj : I.id = j
      · rw [if_pos hj, if_pos (List.mem_cons.mpr (Or.inl hj))]
      · rw [if_neg hj, if_neg (fun hc => (List.mem_cons.mp hc).elim hj hL)]
  rw [he]

/-! ## Membership characterizations for the worklist loops -/

theorem mem_eligOf {F : Func} {DB : DemandedBits} {v k : Nat} :
    k ∈ eligOf F DB v ↔ UserRef.inst k ∈ userRefs F v ∧ extvisAt F DB k = false := by
  unfold eligOf
  rw [List.mem_filter, filterMap_instProj_mem, Bool.not_eq_true']

theorem userRefs_inst_mem {F : Func} {v k : Nat}
    (h : UserRef.inst k ∈ userRefs F v) : k ∈ instIds F := by
  unfold userRefs at h
  rcases List.mem_append.mp h with h | h
  · rcases List.mem_flatMap.mp h with ⟨J, hJ, hk⟩
    rcases List.mem_map.mp hk with ⟨o, _, he⟩
    cases he
    exact List.mem_map.mpr ⟨J, hJ, rfl⟩
  · rcases List.mem_map.mp h with ⟨p, _, he⟩
    cases he

theorem mem_eligOf_instIds {F : Func} {DB : DemandedBits} {v k : Nat}
    (h : k ∈ eligOf F DB v) : k ∈ instIds F :=
  userRefs_inst_mem (mem_eligOf.mp h).1

theorem userRefs_length_le (F : Func) (v : Nat) :
    (userRefs F v).length ≤ edgeBound F := by
  unfold userRefs edgeBound
  rw [List.length_append, List.length_map, List.length_flatMap]
  have h1 : ((F.insts.map (List.length ∘ fun J =>
      (J.operands.filter (fun o => decide (o = Val.instr v))).map
        (fun _ => UserRef.inst J.id)))).sum
      ≤ (F.insts.map (fun J => J.operands.length)).sum := by
    apply List.sum_le_sum
    intro J _
    simp only [Function.comp, List.length_map]
    exact List.length_filter_le _ _
  have h2 : (F.otherUsers.filter (fun p => decide (p.2 = Val.instr v))).length
      ≤ F.otherUsers.length := List.length_filter_le _ _
  omega


/-! ## Anatomy of one worklist step -/

/-- The ids the inner loop of one pop of `j` queries the oracle on. -/
def stepQueried (s : WLState) (j : Nat) : List Nat :=
  (userRefs (clearFlagsIn s.F j) j).filterMap (fun u => match u with
      | UserRef.inst k => if k ∈ j :: s.visited then none else some k
      | UserRef.other _ => none)

/-- The ids one pop of `j` pushes. -/
def stepPushes (DB : DemandedBits) (s : WLState) (j : Nat) : List Nat :=
  (stepQueried s j).filter (fun k => !(extvisAt (clearFlagsIn s.F j) DB k))

theorem wlStep_nil {DB : DemandedBits} {s : WLState} (hw : s.work = []) :
    wlStep DB s = s := by
  unfold wlStep
  rw [hw]

theorem wlStep_cons (DB : DemandedBits) (s : WLState) (j : Nat) (rest : List Nat)
    (hw : s.work = j :: rest) :
    wlStep DB s = { F := clearFlagsIn s.F j
                    work := pushAll rest (stepPushes DB s j)
                    visited := j :: s.visited
                    pops := s.pops ++ [j]
                    qlog := s.qlog ++ stepQueried s j } := by
  unfold wlStep
  rw [hw]
  rfl

theorem userRefs_clearFlagsIn (F : Func) (j v : Nat) :
    userRefs (clearFlagsIn F j) v = userRefs F v :=
  userRefs_mapF F _ (flagOnly_clearIn j) v

theorem extvisAt_clearFlagsIn (F : Func) (j : Nat) (DB : DemandedBits) (k : Nat) :
    extvisAt (clearFlagsIn F j) DB k = extvisAt F DB k :=
  extvisAt_mapF F _ (flagOnly_clearIn j) DB k

theorem mem_stepQueried {s : WLState} {j k : Nat} :
    k ∈ stepQueried s j ↔ UserRef.inst k ∈ userRefs s.F j ∧ k ∉ j :: s.visited := by
  unfold stepQueried
  rw [userRefs_clearFlagsIn, filterMap_instVis_mem]

theorem mem_stepPushes {DB : DemandedBits} {s : WLState} {j k : Nat} :
    k ∈ stepPushes DB s j ↔ k ∈ eligOf s.F DB j ∧ k ∉ j :: s.visited := by
  unfold stepPushes
  rw [List.mem_filter, mem_stepQueried, Bool.not_eq_true', extvisAt_clearFlagsIn, mem_eligOf]
  tauto

/-! ## The propagation invariant -/

/-- Invariant of the propagation loop relative to the starting function `F₀`
and the trivialized instruction `v`: the current function is the original
with flags dropped exactly on the visited set; worklist and visited ids are
instructions of `F₀` reachable through eligible-user chains from `v`; every
eligible user of a visited instruction is visited or still queued, and for a
visited instruction sitting in the worklist (a stale copy), above it in the
stack. -/
structure WLGood (F₀ : Func) (DB : DemandedBits) (v : Nat) (s : WLState) : Prop where
  hF : s.F = clearFlagsOn F₀ s.visited
  hwork : ∀ k ∈ s.work, k ∈ instIds F₀
  hvis : ∀ k ∈ s.visited, k ∈ instIds F₀
  hstack : ∀ l₁ j l₂, s.work = l₁ ++ j :: l₂ → j ∈ s.visited →
    ∀ k ∈ eligOf F₀ DB j, k ∈ s.visited ∨ k ∈ l₁
  hclo : ∀ j ∈ s.visited, ∀ k ∈ eligOf F₀ DB j, k ∈ s.visited ∨ k ∈ s.work
  hreachW : ∀ k ∈ s.work, ReachElig F₀ DB v k
  hreachV : ∀ k ∈ s.visited, ReachElig F₀ DB v k
  hseed : ∀ k ∈ eligOf F₀ DB v, k ∈ s.visited ∨ k ∈ s.work
  hqlog : ∀ q ∈ s.qlog, q ∈ instIds F₀
  hpops : ∀ p ∈ s.pops, p ∈ instIds F₀

theorem wlInit_def (F : Func) (DB : DemandedBits) (v : Nat) :
    wlInit F DB v = { F := F
                      work := (eligOf F DB v).reverse
                      visited := []
                      pops := []
                      qlog := (userRefs F v).filterMap (fun u => match u with
                        | UserRef.inst j => some j
                        | UserRef.other _ => none) } := by
  simp [wlInit, eligOf, pushAll_eq]

theorem wlInit_good (F : Func) (DB : DemandedBits) (v : Nat) :
    WLGood F DB v (wlInit F DB v) := by
  rw [wlInit_def]
  constructor
  case hF =>
    exact (clearFlagsOn_nil F).symm
  case hwork =>
    intro k hk
    exact mem_eligOf_instIds (List.mem_reverse.mp hk)
  case hvis =>
    intro k hk
    cases hk
  case hstack =>
    intro l₁ j l₂ _ hj
    cases hj
  case hclo =>
    intro j hj
    cases hj
  case hreachW =>
    intro k hk
    exact ReachElig.seed k (List.mem_reverse.mp hk)
  case hreachV =>
    intro k hk
    cases hk
  case hseed =>
    intro k hk
    exact Or.inr (List.mem_reverse.mpr hk)
  case hqlog =>
    intro q hq
    exact userRefs_inst_mem ((filterMap_instProj_mem _ _).mp hq)
  case hpops =>
    intro p hp
    cases hp

theorem wlStep_good {F₀ : Func} {DB : DemandedBits} {v : Nat} {s : WLState}
    (g : WLGood F₀ DB v s) : WLGood F₀ DB v (wlStep DB s) := by
  cases hw : s.work with
  | nil =>
    rw [wlStep_nil hw]
    exact g
  | cons j rest =>
    rw [wlStep_cons DB s j rest hw]
    have hjW : j ∈ instIds F₀ := g.hwork j (by rw [hw]; exact List.mem_cons_self _ _)
    have hjR : ReachElig F₀ DB v j := g.hreachW j (by rw [hw]; exact List.mem_cons_self _ _)
    have hpush : ∀ k, k ∈ stepPushes DB s j ↔ k ∈ eligOf F₀ DB j ∧ k ∉ j :: s.visited := by
      intro k
      rw [mem_stepPushes, g.hF, eligOf_clearFlagsOn]
    have hquer : ∀ k, k ∈ stepQueried s j ↔
        UserRef.inst k ∈ userRefs F₀ j ∧ k ∉ j :: s.visited := by
      intro k
      rw [mem_stepQueried, g.hF, userRefs_clearFlagsOn]
    constructor
    case hF =>
      show clearFlagsIn s.F j = _
      rw [g.hF, clearFlagsIn_clearFlagsOn]
    case hwork =>
      intro k hk
      rcases mem_pushAll.mp hk with hk | hk
      · exact mem_eligOf_instIds ((hpush k).mp hk).1
      · exact g.hwork k (by rw [hw]; exact List.mem_cons_of_mem _ hk)
    case hvis =>
      intro k hk
      rcases List.mem_cons.mp hk with hk | hk
      · exact hk ▸ hjW
      · exact g.hvis k hk
    case hstack =>
      intro l₁ x l₂ hdec hxV k hk
      rw [pushAll_eq] at hdec
      rcases List.append_eq_append_iff.mp hdec with ⟨a', ha1, ha2⟩ | ⟨c', hc1, hc2⟩
      · -- x sits inside the old rest
        rcases List.mem_cons.mp hxV with hxj | hxV'
        · subst hxj
          by_cases hkV : k ∈ x :: s.visited
          · rcases List.mem_cons.mp hkV with h | h
            · exact Or.inl (h ▸ List.mem_cons_self _ _)
            · exact Or.inl (List.mem_cons_of_mem _ h)
          · refine Or.inr ?_
            rw [ha1, List.mem_append, List.mem_reverse]
            exact Or.inl ((hpush k).mpr ⟨hk, hkV⟩)
        · have hold : s.work = (j :: a') ++ x :: l₂ := by
            rw [hw, ha2]
            rfl
          rcases g.hstack (j :: a') x l₂ hold hxV' k hk with h | h
          · exact Or.inl (List.mem_cons_of_mem _ h)
          · rcases List.mem_cons.mp h with h | h
            · exact Or.inl (h ▸ List.mem_cons_self _ _)
            · refine Or.inr ?_
              rw [ha1, List.mem_append]
              exact Or.inr h
      · cases c' with
        | nil =>
          rcases List.mem_cons.mp hxV with hxj | hxV'
          · subst hxj
            by_cases hkV : k ∈ x :: s.visited
            · rcases List.mem_cons.mp hkV with h | h
              · exact Or.inl (h ▸ List.mem_cons_self _ _)
              · exact Or.inl (List.mem_cons_of_mem _ h)
            · refine Or.inr ?_
              have hc1' := hc1
              rw [List.append_nil] at hc1'
              rw [← hc1', List.mem_reverse]
              exact (hpush k).mpr ⟨hk, hkV⟩
          · have hc2' : x :: l₂ = rest := by simpa using hc2
            have hold : s.work = [j] ++ x :: l₂ := by
              rw [hw, ← hc2']
              rfl
            rcases g.hstack [j] x l₂ hold hxV' k hk with h | h
            · exact Or.inl (List.mem_cons_of_mem _ h)
            · rcases List.mem_cons.mp h with h | h
              · exact Or.inl (h ▸ List.mem_cons_self _ _)
              · cases h
        | cons y c'' =>
          have hxy : x = y := by
            have := hc2
            simp at this
            exact this.1
          have hxP : x ∈ stepPushes DB s j := by
            have : x ∈ (stepPushes DB s j).reverse := by
              rw [hc1, hxy]
              exact List.mem_append.mpr (Or.inr (List.mem_cons_self _ _))
            exact List.mem_reverse.mp this
          exact absurd hxV ((hpush x).mp hxP).2
    case hclo =>
      intro x hx k hk
      rcases List.mem_cons.mp hx with hxj | hxV
      · subst hxj
        by_cases hkV : k ∈ x :: s.visited
        · exact Or.inl hkV
        · exact Or.inr (mem_pushAll.mpr (Or.inl ((hpush k).mpr ⟨hk, hkV⟩)))
      · rcases g.hclo x hxV k hk with h | h
        · exact Or.inl (List.mem_cons_of_mem _ h)
        · rw [hw] at h
          rcases List.mem_cons.mp h with h | h
          · exact Or.inl (h ▸ List.mem_cons_self _ _)
          · exact Or.inr (mem_pushAll.mpr (Or.inr h))
    case hreachW =>
      intro k hk
      rcases mem_pushAll.mp hk with hk | hk
      · exact ReachElig.step j k hjR ((hpush k).mp hk).1
      · exact g.hreachW k (by rw [hw]; exact List.mem_cons_of_mem _ hk)
    case hreachV =>
      intro k hk
      rcases List.mem_cons.mp hk with hk | hk
      · exact hk ▸ hjR
      · exact g.hreachV k hk
    case hseed =>
      intro k hk
      rcases g.hseed k hk with h | h
      · exact Or.inl (List.mem_cons_of_mem _ h)
      · rw [hw] at h
        rcases List.mem_cons.mp h with h | h
        · exact Or.inl (h ▸ List.mem_cons_self _ _)
        · exact Or.inr (mem_pushAll.mpr (Or.inr h))
    case hqlog =>
      intro q hq
      rcases List.mem_append.mp hq with hq | hq
      · exact g.hqlog q hq
      · exact userRefs_inst_mem ((hquer q).mp hq).1
    case hpops =>
      intro p hp
      rcases List.mem_append.mp hp with hp | hp
      · exact g.hpops p hp
      · rcases List.mem_cons.mp hp with hp | hp
        · exact hp ▸ hjW
        · cases hp

/-! ## Termination of the propagation loop -/

theorem filter_length_mono {l : List Nat} {p q : Nat → Bool}
    (h : ∀ a, p a = true → q a = true) :
    (l.filter p).length ≤ (l.filter q).length := by
  induction l with
  | nil => simp
  | cons a tl ih =>
    by_cases hp : p a = true
    · rw [List.filter_cons, if_pos hp, List.filter_cons, if_pos (h a hp)]
      exact Nat.succ_le_succ ih
    · rw [List.filter_cons, if_neg hp, List.filter_cons]
      by_cases hq : q a = true
      · rw [if_pos hq]
        exact Nat.le_succ_of_le ih
      · rw [if_neg hq]
        exact ih

theorem filter_length_lt {l : List Nat} {p q : Nat → Bool} {j : Nat}
    (hj : j ∈ l) (hpj : p j = true) (hqj : q j = false)
    (h : ∀ a, q a = true → p a = true) :
    (l.filter q).length < (l.filter p).length := by
  induction l with
  | nil => cases hj
  | cons a tl ih =>
    by_cases haj : a = j
    · subst haj
      rw [List.filter_cons, if_neg (by simp [hqj]), List.filter_cons, if_pos hpj]
      exact Nat.lt_succ_of_le (filter_length_mono h)
    · have hj' : j ∈ tl := (List.mem_cons.mp hj).resolve_left (fun he => haj he.symm)
      by_cases hqa : q a = true
      · rw [List.filter_cons, if_pos hqa, List.filter_cons, if_pos (h a hqa)]
        exact Nat.succ_lt_succ (ih hj')
      · rw [List.filter_cons, if_neg hqa, List.filter_cons]
        by_cases hpa : p a = true
        · rw [if_pos hpa]
          exact Nat.lt_succ_of_lt (ih hj')
        · rw [if_neg hpa]
          exact ih hj'

/-- Count of not-yet-visited instructions. -/
def unvis (F₀ : Func) (s : WLState) : Nat :=
  ((instIds F₀).filter (fun k => decide (k ∉ s.visited))).length

/-- Termination measure of the propagation loop. -/
def phiM (F₀ : Func) (s : WLState) : Nat :=
  s.work.length + (edgeBound F₀ + 1) * unvis F₀ s

theorem stepPushes_length_le {F₀ : Func} {DB : DemandedBits} {v : Nat} {s : WLState}
    (g : WLGood F₀ DB v s) (j : Nat) :
    (stepPushes DB s j).length ≤ edgeBound F₀ := by
  have h1 : (stepPushes DB s j).length ≤ (stepQueried s j).length :=
    List.length_filter_le _ _
  have h2 : (stepQueried s j).length ≤ (userRefs (clearFlagsIn s.F j) j).length :=
    List.length_filterMap_le _ _
  have h3 : userRefs (clearFlagsIn s.F j) j = userRefs F₀ j := by
    rw [g.hF, clearFlagsIn_clearFlagsOn, userRefs_clearFlagsOn]
  have h4 := userRefs_length_le F₀ j
  rw [h3] at h2
  omega

theorem phiM_step_lt {F₀ : Func} {DB : DemandedBits} {v : Nat} {s : WLState}
    (g : WLGood F₀ DB v s) (hne : s.work ≠ []) :
    phiM F₀ (wlStep DB s) < phiM F₀ s := by
  cases hw : s.work with
  | nil => exact absurd hw hne
  | cons j rest =>
    have hv : (wlStep DB s).visited = j :: s.visited := by
      rw [wlStep_cons DB s j rest hw]
    have hwk : (wlStep DB s).work = pushAll rest (stepPushes DB s j) := by
      rw [wlStep_cons DB s j rest hw]
    by_cases hjv : j ∈ s.visited
    · -- stale pop: nothing is pushed
      have hP : stepPushes DB s j = [] := by
        rw [List.eq_nil_iff_forall_not_mem]
        intro k hk
        have h2 := mem_stepPushes.mp hk
        rw [g.hF, eligOf_clearFlagsOn] at h2
        rcases g.hstack [] j rest (by rw [hw]; rfl) hjv k h2.1 with h | h
        · exact h2.2 (List.mem_cons_of_mem _ h)
        · cases h
      have hwk' : (wlStep DB s).work = rest := by
        rw [hwk, hP]
        rfl
      have hu : unvis F₀ (wlStep DB s) ≤ unvis F₀ s := by
        unfold unvis
        rw [hv]
        apply filter_length_mono
        intro a ha
        rw [decide_eq_true_eq] at ha ⊢
        intro hmem
        exact ha (List.mem_cons_of_mem _ hmem)
      have hmul := Nat.mul_le_mul_left (edgeBound F₀ + 1) hu
      unfold phiM
      rw [hwk', hw]
      simp only [List.length_cons]
      omega
    · -- fresh pop: the unvisited count drops
      have hjI : j ∈ instIds F₀ := g.hwork j (by rw [hw]; exact List.mem_cons_self _ _)
      have hu : unvis F₀ (wlStep DB s) < unvis F₀ s := by
        unfold unvis
        rw [hv]
        apply filter_length_lt hjI
        · rw [decide_eq_true_eq]
          exact hjv
        · simp
        · intro a ha
          rw [decide_eq_true_eq] at ha ⊢
          intro hmem
          exact ha (List.mem_cons_of_mem _ hmem)
      have hlen := stepPushes_length_le g j
      have hmul : (edgeBound F₀ + 1) * (unvis F₀ (wlStep DB s) + 1)
          ≤ (edgeBound F₀ + 1) * unvis F₀ s := Nat.mul_le_mul_left _ hu
      rw [Nat.mul_succ] at hmul
      unfold phiM
      rw [hwk, length_pushAll, hw]
      simp only [List.length_cons]
      omega

theorem wlRun_drains (F₀ : Func) (DB : DemandedBits) (v : Nat) :
    ∀ n s, WLGood F₀ DB v s → phiM F₀ s ≤ n →
      ((wlStep DB)^[n] s).work = [] ∧ WLGood F₀ DB v ((wlStep DB)^[n] s) := by
  intro n
  induction n with
  | zero =>
    intro s hg hphi
    have hlen : s.work.length = 0 := by
      unfold phiM at hphi
      omega
    rw [Function.iterate_zero_apply]
    exact ⟨List.length_eq_zero.mp hlen, hg⟩
  | succ n ih =>
    intro s hg hphi
    by_cases hw : s.work = []
    · rw [Function.iterate_fixed (wlStep_nil hw)]
      exact ⟨hw, hg⟩
    · rw [Function.iterate_succ_apply]
      apply ih (wlStep DB s) (wlStep_good hg)
      have := phiM_step_lt hg hw
      omega

theorem clearAssumptionsRun_drained (F : Func) (DB : DemandedBits) (v : Nat) :
    (clearAssumptionsRun F DB v).work = [] ∧ WLGood F DB v (clearAssumptionsRun F DB v) := by
  unfold clearAssumptionsRun
  apply wlRun_drains F DB v (wlFuel F) _ (wlInit_good F DB v)
  have h1 : (wlInit F DB v).work.length ≤ edgeBound F := by
    rw [wlInit_def]
    simp only [List.length_reverse]
    calc (eligOf F DB v).length
        ≤ ((userRefs F v).filterMap (fun u => match u with
            | UserRef.inst j => some j
            | UserRef.other _ => none)).length := List.length_filter_le _ _
      _ ≤ (userRefs F v).length := List.length_filterMap_le _ _
      _ ≤ edgeBound F := userRefs_length_le F v
  have h2 : unvis F (wlInit F DB v) ≤ F.insts.length := by
    unfold unvis
    calc ((instIds F).filter (fun k => decide (k ∉ (wlInit F DB v).visited))).length
        ≤ (instIds F).length := List.length_filter_le _ _
      _ = F.insts.length := List.length_map _ _
  unfold phiM wlFuel
  have h3 := Nat.mul_le_mul_left (edgeBound F + 1) h2
  rw [Nat.mul_succ]
  omega

/-- The propagation terminates: the worklist is drained. -/
theorem clearAssumptionsRun_work_nil (F : Func) (DB : DemandedBits) (v : Nat) :
    (clearAssumptionsRun F DB v).work = [] :=
  (clearAssumptionsRun_drained F DB v).1

/-- The set of instructions the propagation flag-clears is exactly the
eligible-reachability closure of the trivialized value. -/
theorem clearAssumptions_visited_iff (F : Func) (DB : DemandedBits) (v : Nat) (j : Nat) :
    j ∈ (clearAssumptionsRun F DB v).visited ↔ ReachElig F DB v j := by
  obtain ⟨hnil, hg⟩ := clearAssumptionsRun_drained F DB v
  constructor
  · exact hg.hreachV j
  · intro hr
    induction hr with
    | seed k hk =>
      rcases hg.hseed k hk with h | h
      · exact h
      · rw [hnil] at h
        cases h
    | step a k _ hk ih =>
      rcases hg.hclo a ih k hk with h | h
      · exact h
      · rw [hnil] at h
        cases h

/-- The propagation only drops flags: its result is the original function
with flags cleared exactly on the visited set. -/
theorem clearAssumptions_F_eq (F : Func) (DB : DemandedBits) (v : Nat) :
    clearAssumptionsOfUsers F DB v = clearFlagsOn F (clearAssumptionsRun F DB v).visited :=
  (clearAssumptionsRun_drained F DB v).2.hF

/-! ## Sources of the propagation's oracle queries -/

theorem userRefs_inst_of_use {F : Func} {W : Instr} {v : Nat}
    (hW : W ∈ F.insts) (ho : Val.instr v ∈ W.operands) :
    UserRef.inst W.id ∈ userRefs F v := by
  unfold userRefs
  refine List.mem_append.mpr (Or.inl (List.mem_flatMap.mpr ⟨W, hW, ?_⟩))
  exact List.mem_map.mpr ⟨Val.instr v, List.mem_filter.mpr ⟨ho, by simp⟩, rfl⟩

theorem userRefs_inst_elim {F : Func} {k v : Nat}
    (h : UserRef.inst k ∈ userRefs F v) :
    ∃ W ∈ F.insts, W.id = k ∧ Val.instr v ∈ W.operands := by
  unfold userRefs at h
  rcases List.mem_append.mp h with h | h
  · rcases List.mem_flatMap.mp h with ⟨J, hJ, hm⟩
    rcases List.mem_map.mp hm with ⟨o, ho, he⟩
    injection he with he
    refine ⟨J, hJ, he, ?_⟩
    have hf := List.mem_filter.mp ho
    have h2 := hf.2
    rw [decide_eq_true_eq] at h2
    exact h2 ▸ hf.1
  · rcases List.mem_map.mp h with ⟨p, _, he⟩
    cases he

theorem extvisAt_false_elim {F : Func} {DB : DemandedBits} {x : Nat}
    (h : extvisAt F DB x = false) :
    ∃ X, getInst F x = some X ∧ X.intTy = true ∧
      ¬ getDemandedBits DB X = 2 ^ X.width - 1 := by
  cases hg : getInst F x with
  | none =>
    unfold extvisAt at h
    rw [hg] at h
    cases h
  | some X =>
    unfold extvisAt at h
    rw [hg] at h
    have h' : (if X.intTy then isExtVisible DB X else true) = false := h
    cases hint : X.intTy with
    | false =>
      rw [hint] at h'
      simp at h'
    | true =>
      rw [hint] at h'
      simp only [if_pos] at h'
      refine ⟨X, rfl, hint, ?_⟩
      exact of_decide_eq_false h'

theorem reachElig_not_extvis {F : Func} {DB : DemandedBits} {v x : Nat}
    (h : ReachElig F DB v x) : extvisAt F DB x = false := by
  induction h with
  | seed j hj => exact (mem_eligOf.mp hj).2
  | step j k _ hk _ => exact (mem_eligOf.mp hk).2

theorem wl_qlog_src_step {F : Func} {DB : DemandedBits} {v : Nat} {s : WLState}
    (g : WLGood F DB v s)
    (h : ∀ k ∈ s.qlog, UserRef.inst k ∈ userRefs F v ∨
      ∃ x, ReachElig F DB v x ∧ UserRef.inst k ∈ userRefs F x) :
    ∀ k ∈ (wlStep DB s).qlog, UserRef.inst k ∈ userRefs F v ∨
      ∃ x, ReachElig F DB v x ∧ UserRef.inst k ∈ userRefs F x := by
  cases hw : s.work with
  | nil =>
    rw [wlStep_nil hw]
    exact h
  | cons j rest =>
    intro k hk
    rw [wlStep_cons DB s j rest hw] at hk
    have hk' : k ∈ s.qlog ++ stepQueried s j := hk
    rcases List.mem_append.mp hk' with hk2 | hk2
    · exact h k hk2
    · have hjR : ReachElig F DB v j :=
        g.hreachW j (by rw [hw]; exact List.mem_cons_self _ _)
      have hq := (mem_stepQueried.mp hk2).1
      rw [g.hF, userRefs_clearFlagsOn] at hq
      exact Or.inr ⟨j, hjR, hq⟩

theorem wl_qlog_src_iter (F : Func) (DB : DemandedBits) (v : Nat) :
    ∀ (n : Nat) (s : WLState), WLGood F DB v s →
      (∀ k ∈ s.qlog, UserRef.inst k ∈ userRefs F v ∨
        ∃ x, ReachElig F DB v x ∧ UserRef.inst k ∈ userRefs F x) →
      ∀ k ∈ ((wlStep DB)^[n] s).qlog, UserRef.inst k ∈ userRefs F v ∨
        ∃ x, ReachElig F DB v x ∧ UserRef.inst k ∈ userRefs F x := by
  intro n
  induction n with
  | zero =>
    intro s _ h
    rw [Function.iterate_zero_apply]
    exact h
  | succ n ih =>
    intro s hg h
    rw [Function.iterate_succ_apply]
    exact ih _ (wlStep_good hg) (wl_qlog_src_step hg h)

/-- Every id the propagation queries the oracle on is an instruction user of
the trivialized value or of an instruction reachable through eligible-user
chains from it. -/
theorem wl_qlog_src (F : Func) (DB : DemandedBits) (v : Nat) :
    ∀ k ∈ (clearAssumptionsRun F DB v).qlog,
      UserRef.inst k ∈ userRefs F v ∨
      ∃ x, ReachElig F DB v x ∧ UserRef.inst k ∈ userRefs F x := by
  unfold clearAssumptionsRun
  apply wl_qlog_src_iter F DB v (wlFuel F) _ (wlInit_good F DB v)
  intro k hk
  rw [wlInit_def] at hk
  exact Or.inl ((filterMap_instProj_mem _ _).mp hk)

/-! ## Claim theorems about the propagation component -/

theorem forall2_map_self {P : Instr → Instr → Prop} (f : Instr → Instr)
    (h : ∀ a, P a (f a)) : ∀ l : List Instr, List.Forall₂ P l (l.map f) := by
  intro l
  induction l with
  | nil => exact List.Forall₂.nil
  | cons a tl ih => exact List.Forall₂.cons (h a) ih

/-- C6: the propagation worklist traversal terminates on every use graph,
cyclic ones included: the bounded run drains the worklist, and the loop state
is a fixpoint of the step function (the pop loop has exited). -/
theorem bdce_C6_termination (F : Func) (DB : DemandedBits) (v : Nat) :
    (clearAssumptionsRun F DB v).work = [] ∧
    wlStep DB (clearAssumptionsRun F DB v) = clearAssumptionsRun F DB v := by
  have h := clearAssumptionsRun_work_nil F DB v
  exact ⟨h, wlStep_nil h⟩

/-- C8: the propagation component only drops poison-generating flags: it
keeps the instruction list's length, every instruction's identity, operands
and metadata, and the non-instruction users and metadata uses of the
function; each instruction is either untouched or exactly flag-dropped. -/
theorem bdce_C8_propagation_frame (F : Func) (DB : DemandedBits) (v : Nat) :
    (clearAssumptionsOfUsers F DB v).insts.length = F.insts.length ∧
    List.Forall₂ (fun J J' => (J' = J ∨ J' = J.dropFlags) ∧ J'.id = J.id ∧
        J'.operands = J.operands ∧ J'.metadata = J.metadata)
      F.insts (clearAssumptionsOfUsers F DB v).insts ∧
    (clearAssumptionsOfUsers F DB v).otherUsers = F.otherUsers ∧
    (clearAssumptionsOfUsers F DB v).mdUses = F.mdUses := by
  rw [clearAssumptions_F_eq F DB v]
  refine ⟨?_, ?_, rfl, rfl⟩
  · exact List.length_map _ _
  · apply forall2_map_self
    intro a
    by_cases h : a.id ∈ (clearAssumptionsRun F DB v).visited <;>
      simp [h, Instr.dropFlags]

/-- C10: the propagation never treats a non-instruction user as a traversal
node: every oracle query and every pop targets an instruction of the
function, and the non-instruction users (and metadata uses) are unmodified. -/
theorem bdce_C10_nonInstruction_users (F : Func) (DB : DemandedBits) (v : Nat) :
    (∀ q ∈ (clearAssumptionsRun F DB v).qlog, q ∈ instIds F) ∧
    (∀ p ∈ (clearAssumptionsRun F DB v).pops, p ∈ instIds F) ∧
    (clearAssumptionsOfUsers F DB v).otherUsers = F.otherUsers ∧
    (clearAssumptionsOfUsers F DB v).mdUses = F.mdUses := by
  have hg := (clearAssumptionsRun_drained F DB v).2
  refine ⟨hg.hqlog, hg.hpops, ?_, ?_⟩ <;> rw [clearAssumptions_F_eq F DB v] <;> rfl

/-- C3 (amended): the propagation's effect is exactly to drop the
poison-generating flags of the instructions reachable from the trivialized
value through chains of non-externally-visible instruction users; an
externally visible user is not entered at all (it is neither flag-cleared
nor walked past), and everything else is untouched. -/
theorem bdce_C3_amended (F : Func) (DB : DemandedBits) (v : Nat) :
    clearAssumptionsOfUsers F DB v
      = clearFlagsOn F (clearAssumptionsRun F DB v).visited ∧
    (∀ j, j ∈ (clearAssumptionsRun F DB v).visited ↔ ReachElig F DB v j) := by
  exact ⟨clearAssumptions_F_eq F DB v, fun j => clearAssumptions_visited_iff F DB v j⟩

/-- Origin instruction of the C3 counterexample function. -/
def exI0 : Instr :=
  { id := 0, intTy := true, width := 8, sideEffects := false, operands := []
    nsw := false, nuw := false, exactFlag := false, metadata := 0 }

/-- Direct user with all bits demanded and the nsw flag set. -/
def exJ3 : Instr :=
  { id := 1, intTy := true, width := 8, sideEffects := false, operands := [Val.instr 0]
    nsw := true, nuw := false, exactFlag := false, metadata := 0 }

/-- C3 counterexample function: instruction 1 consumes instruction 0. -/
def exF3 : Func := { insts := [exI0, exJ3], otherUsers := [], mdUses := [] }

/-- C3 counterexample oracle: instruction 0 has an all-dead mask, its user
(instruction 1) has all bits demanded (externally visible). -/
def exDB3 : DemandedBits :=
  { demanded := fun i => if i = 1 then 255 else 0, dead := fun _ => false }

/-- C3 counterexample: the claim says the first externally visible user's own
flags are still cleared.  In the code an externally visible direct user is
never pushed, so its flags are NOT cleared: propagating from instruction 0,
whose direct user (instruction 1) has an all-ones demanded mask and
nsw = true, leaves the function unchanged and the nsw flag intact. -/
theorem bdce_C3_counterexample :
    getDemandedBits exDB3 exJ3 = 2 ^ exJ3.width - 1 ∧
    exJ3.nsw = true ∧
    getInst (clearAssumptionsOfUsers exF3 exDB3 0) 1 = some exJ3 ∧
    clearAssumptionsOfUsers exF3 exDB3 0 = exF3 := by
  decide

/-- C5 (amended): the visited set guarantees that once an instruction has
been popped and flag-cleared (it is in the visited set), a step of the loop
never pushes another copy of it: its number of worklist copies never grows
again.  (An instruction can still be flag-cleared more than once, once per
copy that entered the worklist before its first pop; clearing is idempotent.) -/
theorem bdce_C5_amended (DB : DemandedBits) (s : WLState) (j : Nat)
    (hj : j ∈ s.visited) :
    (wlStep DB s).work.count j ≤ s.work.count j := by
  cases hw : s.work with
  | nil =>
    rw [wlStep_nil hw, hw]
  | cons x rest =>
    have hwk : (wlStep DB s).work = pushAll rest (stepPushes DB s x) := by
      rw [wlStep_cons DB s x rest hw]
    rw [hwk, pushAll_eq, List.count_append, List.count_reverse]
    have hzero : (stepPushes DB s x).count j = 0 :=
      List.count_eq_zero.mpr
        (fun hmem => (mem_stepPushes.mp hmem).2 (List.mem_cons_of_mem _ hj))
    rw [hzero]
    simpa using List.count_le_count_cons j x rest

/-- An instruction that uses instruction 0 twice (two operand slots), is not
externally visible, and carries the nsw flag. -/
def exJ5 : Instr :=
  { id := 1, intTy := true, width := 8, sideEffects := false
    operands := [Val.instr 0, Val.instr 0]
    nsw := true, nuw := false, exactFlag := false, metadata := 0 }

/-- C5 counterexample function: instruction 1 uses instruction 0 in two
operand slots, so the use list of instruction 0 holds it twice. -/
def exF5 : Func := { insts := [exI0, exJ5], otherUsers := [], mdUses := [] }

/-- C5 counterexample oracle: instruction 0 all-dead, instruction 1 demanded
mask 1 (not all ones, so not externally visible). -/
def exDB5 : DemandedBits :=
  { demanded := fun i => if i = 1 then 1 else 0, dead := fun _ => false }

/-- C5 counterexample: the pop loop drops poison-generating flags without
re-checking the visited set, so an instruction seeded twice (one entry per
use) is popped twice and flag-cleared twice — `pops` records one entry per
`dropPoisonGeneratingFlags` call, and instruction 1 appears in it twice,
refuting "each instruction is flag-cleared at most once". -/
theorem bdce_C5_counterexample :
    (clearAssumptionsRun exF5 exDB5 0).pops = [1, 1] ∧
    (clearAssumptionsRun exF5 exDB5 0).pops.count 1 = 2 := by
  decide

/-- A worklist state with instruction 1 already visited and one stale copy of
it queued. -/
def exS5 : WLState :=
  { F := exF5, work := [1], visited := [1], pops := [1], qlog := [1, 1] }

/-- Witness for the amended C5 at a concrete state: instruction 1 is visited,
and the step does not increase its number of worklist copies. -/
theorem bdce_C5_amended_witness :
    1 ∈ exS5.visited ∧ (wlStep exDB5 exS5).work.count 1 ≤ exS5.work.count 1 :=
  ⟨by decide, bdce_C5_amended exDB5 exS5 1 (by decide)⟩

/-- Witness for C10 at a concrete input: the oracle-query log of the
propagation on `exF5` from instruction 0 targets only instructions of the
function, and the non-instruction users are unchanged. -/
theorem bdce_C10_witness :
    instIds exF5 = [0, 1] ∧
    (clearAssumptionsRun exF5 exDB5 0).qlog = [1, 1] ∧
    (clearAssumptionsOfUsers exF5 exDB5 0).otherUsers = exF5.otherUsers :=
  ⟨by decide, by decide, (bdce_C10_nonInstruction_users exF5 exDB5 0).2.2.1⟩

/-! ## Scan phase: generic structure-tracking utilities -/

theorem forall2_map_right {P : Instr → Instr → Prop} {l₀ l : List Instr}
    (h : List.Forall₂ P l₀ l) (g : Instr → Instr) (hg : ∀ a b, P a b → P a (g b)) :
    List.Forall₂ P l₀ (l.map g) := by
  induction h with
  | nil => exact List.Forall₂.nil
  | cons hab _ ih => exact List.Forall₂.cons (hg _ _ hab) ih

theorem forall2_mem_right {P : Instr → Instr → Prop} {l₀ l : List Instr}
    (h : List.Forall₂ P l₀ l) : ∀ b ∈ l, ∃ a ∈ l₀, P a b := by
  induction h with
  | nil => intro b hb; cases hb
  | cons hab _ ih =>
    intro b hb
    rcases List.mem_cons.mp hb with hb | hb
    · exact ⟨_, List.mem_cons_self _ _, hb ▸ hab⟩
    · rcases ih b hb with ⟨a, ha, hP⟩
      exact ⟨a, List.mem_cons_of_mem _ ha, hP⟩

theorem forall2_refl_inst {P : Instr → Instr → Prop} (h : ∀ a, P a a) :
    ∀ l : List Instr, List.Forall₂ P l l := by
  intro l
  induction l with
  | nil => exact List.Forall₂.nil
  | cons a tl ih => exact List.Forall₂.cons (h a) ih

theorem forall2_map_rel {α β : Type} {P Q : α → β → Prop} {l₀ : List α} {l : List β}
    (h : List.Forall₂ P l₀ l) (g : β → β) (hg : ∀ a b, P a b → Q a (g b)) :
    List.Forall₂ Q l₀ (l.map g) := by
  induction h with
  | nil => exact List.Forall₂.nil
  | cons hab _ ih => exact List.Forall₂.cons (hg _ _ hab) ih

theorem forall2_getElem_left {α β : Type} {P : α → β → Prop} {l₀ : List α} {l : List β}
    (h : List.Forall₂ P l₀ l) :
    ∀ {n : Nat} {a : α}, l₀[n]? = some a → ∃ b, l[n]? = some b ∧ P a b := by
  induction h with
  | nil =>
    intro n a ha
    rw [List.getElem?_nil] at ha
    cases ha
  | @cons x y l₀' l' hxy _ ih =>
    intro n a ha
    cases n with
    | zero =>
      rw [List.getElem?_cons_zero] at ha
      injection ha with ha
      subst ha
      exact ⟨y, List.getElem?_cons_zero, hxy⟩
    | succ m =>
      rw [List.getElem?_cons_succ] at ha
      obtain ⟨b, hb, hP⟩ := ih ha
      exact ⟨b, by rw [List.getElem?_cons_succ]; exact hb, hP⟩

theorem forall2_getElem_right {α β : Type} {P : α → β → Prop} {l₀ : List α} {l : List β}
    (h : List.Forall₂ P l₀ l) :
    ∀ {n : Nat} {b : β}, l[n]? = some b → ∃ a, l₀[n]? = some a ∧ P a b := by
  induction h with
  | nil =>
    intro n b hb
    rw [List.getElem?_nil] at hb
    cases hb
  | @cons x y l₀' l' hxy _ ih =>
    intro n b hb
    cases n with
    | zero =>
      rw [List.getElem?_cons_zero] at hb
      injection hb with hb
      subst hb
      exact ⟨x, List.getElem?_cons_zero, hxy⟩
    | succ m =>
      rw [List.getElem?_cons_succ] at hb
      obtain ⟨a, ha, hP⟩ := ih hb
      exact ⟨a, by rw [List.getElem?_cons_succ]; exact ha, hP⟩

theorem exists_getElem_some_of_mem {α : Type} {a : α} {l : List α} (h : a ∈ l) :
    ∃ n : Nat, l[n]? = some a := by
  induction l with
  | nil => cases h
  | cons x tl ih =>
    rcases List.mem_cons.mp h with h1 | h1
    · exact ⟨0, by rw [List.getElem?_cons_zero, h1]⟩
    · obtain ⟨n, hn⟩ := ih h1
      exact ⟨n + 1, by rw [List.getElem?_cons_succ]; exact hn⟩

theorem length_filter_lt_of_mem {α : Type} {l : List α} {p : α → Bool} {a : α}
    (ha : a ∈ l) (hpa : p a = false) : (l.filter p).length < l.length := by
  induction l with
  | nil => cases ha
  | cons x tl ih =>
    rcases List.mem_cons.mp ha with h1 | h1
    · subst h1
      rw [List.filter_cons, if_neg (by simp [hpa])]
      exact Nat.lt_succ_of_le (List.length_filter_le _ _)
    · rw [List.filter_cons]
      by_cases hx : p x = true
      · rw [if_pos hx]
        exact Nat.succ_lt_succ (ih h1)
      · rw [if_neg hx]
        exact Nat.lt_succ_of_lt (ih h1)

/-- `find?` pairing along a `Forall₂` of id-preserving relations. -/
theorem forall2_find_id {P : Instr → Instr → Prop} {l₀ l : List Instr}
    (h : List.Forall₂ P l₀ l) (hid : ∀ a b, P a b → b.id = a.id) (i : Nat) :
    (l₀.find? (fun I => decide (I.id = i)) = none ∧
      l.find? (fun I => decide (I.id = i)) = none) ∨
    (∃ I₀ J, l₀.find? (fun I => decide (I.id = i)) = some I₀ ∧
      l.find? (fun I => decide (I.id = i)) = some J ∧ P I₀ J) := by
  induction h with
  | nil => exact Or.inl ⟨rfl, rfl⟩
  | @cons a b l₀' l' hab htl ih =>
    by_cases hai : a.id = i
    · refine Or.inr ⟨a, b, ?_, ?_, hab⟩
      · rw [List.find?_cons]
        simp [hai]
      · rw [List.find?_cons]
        simp [hid a b hab, hai]
    · have hbi : ¬ b.id = i := by
        rw [hid a b hab]
        exact hai
      rcases ih with ⟨h1, h2⟩ | ⟨I₀, J, h1, h2, hP⟩
      · refine Or.inl ⟨?_, ?_⟩
        · rw [List.find?_cons]
          simp [hai, h1]
        · rw [List.find?_cons]
          simp [hbi, h2]
      · refine Or.inr ⟨I₀, J, ?_, ?_, hP⟩
        · rw [List.find?_cons]
          simp [hai, h1]
        · rw [List.find?_cons]
          simp [hbi, h2]

theorem find_id_of_mem_nodup {l : List Instr} {I : Instr}
    (hwf : (l.map (fun I => I.id)).Nodup) (hmem : I ∈ l) :
    l.find? (fun J => decide (J.id = I.id)) = some I := by
  induction l with
  | nil => cases hmem
  | cons J tl ih =>
    rw [List.map_cons, List.nodup_cons] at hwf
    rcases List.mem_cons.mp hmem with hIJ | hIt
    · subst hIJ
      rw [List.find?_cons]
      simp
    · have hne : ¬ J.id = I.id := by
        intro he
        exact hwf.1 (he ▸ List.mem_map.mpr ⟨I, hIt, rfl⟩)
      rw [List.find?_cons]
      have hd : (decide (J.id = I.id)) = false := by simp [hne]
      simp only [hd]
      exact ih hwf.2 hIt

theorem getInst_of_mem_nodup {F : Func} {I : Instr} (hwf : wfIds F)
    (hmem : I ∈ F.insts) : getInst F I.id = some I := by
  unfold wfIds instIds at hwf
  unfold getInst
  exact find_id_of_mem_nodup hwf hmem

theorem nodup_id_unique {F : Func} (hwf : wfIds F) {J₀ J₁ : Instr}
    (h0 : J₀ ∈ F.insts) (h1 : J₁ ∈ F.insts) (hid : J₀.id = J₁.id) : J₀ = J₁ := by
  have e0 := getInst_of_mem_nodup hwf h0
  have e1 := getInst_of_mem_nodup hwf h1
  rw [hid] at e0
  rw [e0] at e1
  exact Option.some.inj e1

theorem getInst_map_idpres (F : Func) (g : Instr → Instr)
    (hid : ∀ I, (g I).id = I.id) (i : Nat) :
    getInst { F with insts := F.insts.map g } i = Option.map g (getInst F i) := by
  unfold getInst
  rw [List.find?_map]
  have he : ((fun I => decide (I.id = i)) ∘ g) = (fun I : Instr => decide (I.id = i)) := by
    funext I
    simp [hid]
  rw [he]

/-- Whether the value of instruction `i` has any non-metadata use. -/
def hasInstrUse (F : Func) (i : Nat) : Prop :=
  (∃ J ∈ F.insts, Val.instr i ∈ J.operands) ∨ (∃ p ∈ F.otherUsers, p.2 = Val.instr i)

theorem hasInstrUse_iff_userRefs {F : Func} {i : Nat} :
    hasInstrUse F i ↔ ∃ u, u ∈ userRefs F i := by
  constructor
  · rintro (⟨J, hJ, ho⟩ | ⟨p, hp, he⟩)
    · refine ⟨UserRef.inst J.id, ?_⟩
      unfold userRefs
      refine List.mem_append.mpr (Or.inl (List.mem_flatMap.mpr ⟨J, hJ, ?_⟩))
      exact List.mem_map.mpr ⟨Val.instr i,
        List.mem_filter.mpr ⟨ho, by simp⟩, rfl⟩
    · refine ⟨UserRef.other p.1, ?_⟩
      unfold userRefs
      refine List.mem_append.mpr (Or.inr ?_)
      exact List.mem_map.mpr ⟨p, List.mem_filter.mpr ⟨hp, by simp [he]⟩, rfl⟩
  · rintro ⟨u, hu⟩
    unfold userRefs at hu
    rcases List.mem_append.mp hu with hu | hu
    · rcases List.mem_flatMap.mp hu with ⟨J, hJ, hm⟩
      rcases List.mem_map.mp hm with ⟨o, ho, _⟩
      have := List.mem_filter.mp ho
      refine Or.inl ⟨J, hJ, ?_⟩
      have h2 := this.2
      rw [decide_eq_true_eq] at h2
      exact h2 ▸ this.1
    · rcases List.mem_map.mp hu with ⟨p, hp, _⟩
      have := List.mem_filter.mp hp
      have h2 := this.2
      rw [decide_eq_true_eq] at h2
      exact Or.inr ⟨p, this.1, h2⟩

theorem useEmptyB_iff_not_hasInstrUse {F : Func} {i : Nat} :
    useEmptyB F i = true ↔ ¬ hasInstrUse F i := by
  unfold useEmptyB
  rw [List.isEmpty_iff, hasInstrUse_iff_userRefs, List.eq_nil_iff_forall_not_mem]
  constructor
  · rintro h ⟨u, hu⟩
    exact h u hu
  · intro h u hu
    exact h ⟨u, hu⟩

/-! ## Anatomy of one scan step -/

theorem trivStep_of_nonint {DB : DemandedBits} {s : ScanState} {i : Nat} {I : Instr}
    (h : I.intTy = false) : trivStep DB s i I = s := by
  unfold trivStep
  rw [h]
  rfl

theorem trivStep_of_livemask {DB : DemandedBits} {s : ScanState} {i : Nat} {I : Instr}
    (h1 : I.intTy = true) (h2 : ¬ getDemandedBits DB I = 0) :
    trivStep DB s i I = { s with log := s.log ++ [Query.scanDemanded i] } := by
  unfold trivStep
  rw [h1, if_pos rfl, if_neg h2]

theorem trivStep_of_fire {DB : DemandedBits} {s : ScanState} {i : Nat} {I : Instr}
    (h1 : I.intTy = true) (h2 : getDemandedBits DB I = 0) :
    trivStep DB s i I =
      { F := replaceNonMetadataUsesWith (clearAssumptionsOfUsers s.F DB i) i
          (Val.const I.width 0)
        queue := s.queue
        changed := true
        log := (s.log ++ [Query.scanDemanded i])
          ++ (clearAssumptionsRun s.F DB i).qlog.map Query.propDemanded } := by
  unfold trivStep clearAssumptionsOfUsers
  rw [h1, if_pos rfl, if_pos h2]

theorem deadStep_of_dead {DB : DemandedBits} {s : ScanState} {i : Nat}
    (h : DB.dead i = true) :
    deadStep DB s i =
      { F := dropAllReferences s.F i
        queue := s.queue ++ [i]
        changed := true
        log := s.log ++ [Query.scanDead i] } := by
  unfold deadStep
  rw [if_pos h]

theorem deadStep_of_alive {DB : DemandedBits} {s : ScanState} {i : Nat}
    (h : DB.dead i = false) :
    deadStep DB s i = { s with log := s.log ++ [Query.scanDead i] } := by
  unfold deadStep
  rw [if_neg (by rw [h]; exact Bool.false_ne_true)]

theorem processInst_of_none {DB : DemandedBits} {s : ScanState} {i : Nat}
    (h : getInst s.F i = none) : processInst DB s i = s := by
  unfold processInst
  rw [h]

theorem processInst_of_skip {DB : DemandedBits} {s : ScanState} {i : Nat} {I : Instr}
    (h : getInst s.F i = some I) (hse : I.sideEffects = true)
    (hue : useEmptyB s.F i = true) : processInst DB s i = s := by
  unfold processInst
  rw [h]
  simp [hse, hue]

theorem processInst_of_run {DB : DemandedBits} {s : ScanState} {i : Nat} {I : Instr}
    (h : getInst s.F i = some I) (hns : ¬ (I.sideEffects = true ∧ useEmptyB s.F i = true)) :
    processInst DB s i = deadStep DB (trivStep DB s i I) i := by
  unfold processInst
  rw [h]
  have hb : (I.sideEffects && useEmptyB s.F i) = false := by
    cases hse : I.sideEffects with
    | false => simp
    | true =>
      cases hue : useEmptyB s.F i with
      | false => simp
      | true => exact absurd ⟨hse, hue⟩ hns
  simp [hb]

/-! ## Per-transformation tracking lemmas -/

theorem substVal_eq_instr {v w : Nat} {x : Val} {i : Nat}
    (h : substVal v (Val.const w 0) x = Val.instr i) : x = Val.instr i := by
  unfold substVal at h
  by_cases hx : x = Val.instr v
  · rw [if_pos hx] at h
    cases h
  · rwa [if_neg hx] at h

theorem substVal_self_ne {i w : Nat} (x : Val) :
    substVal i (Val.const w 0) x ≠ Val.instr i := by
  unfold substVal
  by_cases hx : x = Val.instr i
  · rw [if_pos hx]
    intro h
    cases h
  · rw [if_neg hx]
    exact hx

theorem hasInstrUse_replace_back {F : Func} {v w i : Nat}
    (h : hasInstrUse (replaceNonMetadataUsesWith F v (Val.const w 0)) i) :
    hasInstrUse F i := by
  rcases h with ⟨J', hJ', ho⟩ | ⟨p', hp', he⟩
  · rcases List.mem_map.mp hJ' with ⟨J, hJ, hEq⟩
    subst hEq
    rcases List.mem_map.mp ho with ⟨x, hx, hxe⟩
    exact Or.inl ⟨J, hJ, substVal_eq_instr hxe ▸ hx⟩
  · rcases List.mem_map.mp hp' with ⟨p, hp, hEq⟩
    subst hEq
    exact Or.inr ⟨p, hp, substVal_eq_instr he⟩

theorem hasInstrUse_drop_back {F : Func} {j i : Nat}
    (h : hasInstrUse (dropAllReferences F j) i) : hasInstrUse F i := by
  rcases h with ⟨J', hJ', ho⟩ | ⟨p', hp', he⟩
  · rcases List.mem_map.mp hJ' with ⟨J, hJ, hEq⟩
    subst hEq
    by_cases hid : J.id = j
    · rw [if_pos hid] at ho
      cases ho
    · rw [if_neg hid] at ho
      exact Or.inl ⟨J, hJ, ho⟩
  · exact Or.inr ⟨p', hp', he⟩

theorem hasInstrUse_clearOn {F : Func} {L : List Nat} {i : Nat} :
    hasInstrUse (clearFlagsOn F L) i ↔ hasInstrUse F i := by
  rw [hasInstrUse_iff_userRefs, hasInstrUse_iff_userRefs, userRefs_clearFlagsOn]

theorem not_hasInstrUse_replace_self (F : Func) (i w : Nat) :
    ¬ hasInstrUse (replaceNonMetadataUsesWith F i (Val.const w 0)) i := by
  rintro (⟨J', hJ', ho⟩ | ⟨p', hp', he⟩)
  · rcases List.mem_map.mp hJ' with ⟨J, _, hEq⟩
    subst hEq
    rcases List.mem_map.mp ho with ⟨x, _, hxe⟩
    exact substVal_self_ne x hxe
  · rcases List.mem_map.mp hp' with ⟨p, _, hEq⟩
    subst hEq
    exact substVal_self_ne p.2 he

/-! ## The scan-wide tracking invariant -/

/-- Per-instruction relation maintained across the whole scan: identity and
shape fields are preserved, and an operand slot never acquires an instruction
reference that was not already used by the original instruction. -/
def TrackRel (J₀ J : Instr) : Prop :=
  J.id = J₀.id ∧ J.intTy = J₀.intTy ∧ J.width = J₀.width ∧
  J.sideEffects = J₀.sideEffects ∧ J.metadata = J₀.metadata ∧
  (∀ m, Val.instr m ∈ J.operands → Val.instr m ∈ J₀.operands)

/-- Function-level tracking invariant of the scan. -/
def Tracks (F₀ F : Func) : Prop :=
  List.Forall₂ TrackRel F₀.insts F.insts ∧ F.mdUses = F₀.mdUses

theorem tracks_refl (F : Func) : Tracks F F :=
  ⟨forall2_refl_inst (fun _ => ⟨rfl, rfl, rfl, rfl, rfl, fun _ h => h⟩) F.insts, rfl⟩

theorem trackRel_flagOnly {g : Instr → Instr} (hg : FlagOnly g) {a b : Instr}
    (h : TrackRel a b) : TrackRel a (g b) := by
  obtain ⟨h1, h2, h3, h4, h5, h6⟩ := h
  exact ⟨(hg.idEq b).trans h1, (hg.intTyEq b).trans h2, (hg.widthEq b).trans h3,
    (hg.sideEffectsEq b).trans h4, (hg.metadataEq b).trans h5,
    fun m hm => h6 m ((hg.operandsEq b) ▸ hm)⟩

theorem tracks_clearOn {F₀ F : Func} {L : List Nat} (h : Tracks F₀ F) :
    Tracks F₀ (clearFlagsOn F L) :=
  ⟨forall2_map_right h.1 _ (fun _ _ hab => trackRel_flagOnly (flagOnly_clearOn L) hab),
    h.2⟩

theorem tracks_replace {F₀ F : Func} {v w : Nat} (h : Tracks F₀ F) :
    Tracks F₀ (replaceNonMetadataUsesWith F v (Val.const w 0)) := by
  refine ⟨forall2_map_right h.1 _ ?_, h.2⟩
  intro a b hab
  obtain ⟨h1, h2, h3, h4, h5, h6⟩ := hab
  refine ⟨h1, h2, h3, h4, h5, ?_⟩
  intro m hm
  rcases List.mem_map.mp hm with ⟨x, hx, hxe⟩
  exact h6 m (substVal_eq_instr hxe ▸ hx)

theorem tracks_drop {F₀ F : Func} {j : Nat} (h : Tracks F₀ F) :
    Tracks F₀ (dropAllReferences F j) := by
  refine ⟨forall2_map_right h.1 _ ?_, h.2⟩
  intro a b hab
  obtain ⟨h1, h2, h3, h4, h5, h6⟩ := hab
  by_cases hid : b.id = j
  · rw [if_pos hid]
    refine ⟨h1, h2, h3, h4, h5, ?_⟩
    intro m hm
    cases hm
  · rw [if_neg hid]
    exact ⟨h1, h2, h3, h4, h5, h6⟩

theorem tracks_clearAssumptions {F₀ F : Func} {DB : DemandedBits} {v : Nat}
    (h : Tracks F₀ F) : Tracks F₀ (clearAssumptionsOfUsers F DB v) := by
  rw [clearAssumptions_F_eq]
  exact tracks_clearOn h

theorem trivStep_tracks {F₀ : Func} {DB : DemandedBits} {s : ScanState} {i : Nat}
    {I : Instr} (h : Tracks F₀ s.F) : Tracks F₀ (trivStep DB s i I).F := by
  cases hI : I.intTy with
  | false =>
    rw [trivStep_of_nonint hI]
    exact h
  | true =>
    by_cases h2 : getDemandedBits DB I = 0
    · rw [trivStep_of_fire hI h2]
      exact tracks_replace (tracks_clearAssumptions h)
    · rw [trivStep_of_livemask hI h2]
      exact h

theorem deadStep_tracks {F₀ : Func} {DB : DemandedBits} {s : ScanState} {i : Nat}
    (h : Tracks F₀ s.F) : Tracks F₀ (deadStep DB s i).F := by
  cases hd : DB.dead i with
  | false =>
    rw [deadStep_of_alive hd]
    exact h
  | true =>
    rw [deadStep_of_dead hd]
    exact tracks_drop h

theorem processInst_tracks {F₀ : Func} {DB : DemandedBits} {s : ScanState} {j : Nat}
    (h : Tracks F₀ s.F) : Tracks F₀ (processInst DB s j).F := by
  cases hg : getInst s.F j with
  | none =>
    rw [processInst_of_none hg]
    exact h
  | some I =>
    by_cases hsk : I.sideEffects = true ∧ useEmptyB s.F j = true
    · rw [processInst_of_skip hg hsk.1 hsk.2]
      exact h
    · rw [processInst_of_run hg hsk]
      exact deadStep_tracks (trivStep_tracks h)

/-! ## Queue, change-flag and log bookkeeping of the scan step -/

theorem trivStep_queue (DB : DemandedBits) (s : ScanState) (i : Nat) (I : Instr) :
    (trivStep DB s i I).queue = s.queue := by
  cases hI : I.intTy with
  | false => rw [trivStep_of_nonint hI]
  | true =>
    by_cases h2 : getDemandedBits DB I = 0
    · rw [trivStep_of_fire hI h2]
    · rw [trivStep_of_livemask hI h2]

theorem trivStep_changed (DB : DemandedBits) (s : ScanState) (i : Nat) (I : Instr) :
    (trivStep DB s i I).changed = s.changed ∨ (trivStep DB s i I).changed = true := by
  cases hI : I.intTy with
  | false =>
    rw [trivStep_of_nonint hI]
    exact Or.inl rfl
  | true =>
    by_cases h2 : getDemandedBits DB I = 0
    · rw [trivStep_of_fire hI h2]
      exact Or.inr rfl
    · rw [trivStep_of_livemask hI h2]
      exact Or.inl rfl

theorem trivStep_F_or (DB : DemandedBits) (s : ScanState) (i : Nat) (I : Instr) :
    ((trivStep DB s i I).F = s.F ∧ (trivStep DB s i I).changed = s.changed) ∨
      (trivStep DB s i I).changed = true := by
  cases hI : I.intTy with
  | false =>
    rw [trivStep_of_nonint hI]
    exact Or.inl ⟨rfl, rfl⟩
  | true =>
    by_cases h2 : getDemandedBits DB I = 0
    · rw [trivStep_of_fire hI h2]
      exact Or.inr rfl
    · rw [trivStep_of_livemask hI h2]
      exact Or.inl ⟨rfl, rfl⟩

theorem processInst_no_change {DB : DemandedBits} {s : ScanState} {j : Nat}
    (h : (processInst DB s j).changed = false) :
    (processInst DB s j).F = s.F ∧ (processInst DB s j).queue = s.queue ∧
      s.changed = false := by
  cases hg : getInst s.F j with
  | none =>
    rw [processInst_of_none hg] at *
    exact ⟨rfl, rfl, h⟩
  | some I =>
    by_cases hsk : I.sideEffects = true ∧ useEmptyB s.F j = true
    · rw [processInst_of_skip hg hsk.1 hsk.2] at *
      exact ⟨rfl, rfl, h⟩
    · rw [processInst_of_run hg hsk] at *
      cases hd : DB.dead j with
      | true =>
        rw [deadStep_of_dead hd] at h
        cases h
      | false =>
        rw [deadStep_of_alive hd] at h ⊢
        rcases trivStep_F_or DB s j I with ⟨hF, hch⟩ | hch
        · refine ⟨hF, ?_, ?_⟩
          · show (trivStep DB s j I).queue = s.queue
            exact trivStep_queue DB s j I
          · rw [← hch]
            exact h
        · have h' : (trivStep DB s j I).changed = false := h
          rw [hch] at h'
          cases h'

/-! ## The no-change case of the scan -/

theorem foldl_no_change (DB : DemandedBits) :
    ∀ (ids : List Nat) (s : ScanState),
      (List.foldl (processInst DB) s ids).changed = false →
      (List.foldl (processInst DB) s ids).F = s.F ∧
        (List.foldl (processInst DB) s ids).queue = s.queue ∧ s.changed = false := by
  intro ids
  induction ids with
  | nil =>
    intro s h
    exact ⟨rfl, rfl, h⟩
  | cons a tl ih =>
    intro s h
    rw [List.foldl_cons] at h ⊢
    obtain ⟨hF, hq, hch⟩ := ih (processInst DB s a) h
    obtain ⟨hF', hq', hch'⟩ := processInst_no_change hch
    exact ⟨hF.trans hF', hq.trans hq', hch'⟩

theorem eraseQueue_nil (F : Func) : eraseQueue F [] = F := rfl

/-- Shared helper: a scan that reports no change left the function exactly as
it was. -/
theorem bdceRun_false_unchanged {F : Func} {DB : DemandedBits}
    (h : (bdceRun F DB).changed = false) : (bdceRun F DB).F = F := by
  unfold bdceRun at *
  have hch : (bdceScan DB F).changed = false := h
  obtain ⟨hF, hq, _⟩ := foldl_no_change DB (instIds F)
    { F := F, queue := [], changed := false, log := [] } hch
  show eraseQueue (bdceScan DB F).F (bdceScan DB F).queue = F
  unfold bdceScan at *
  rw [hF, hq, eraseQueue_nil]

/-! ## Claims about the scan's change flag and re-running the pass -/

/-- A single-instruction function: one integer instruction, no side effects,
no uses, no operands. -/
def exF7 : Func := { insts := [exI0], otherUsers := [], mdUses := [] }

/-- An oracle with live masks and nothing dead (no-op run). -/
def exDB7b : DemandedBits := { demanded := fun _ => 5, dead := fun _ => false }

/-- Integer instruction that consumes instruction 0 and has all bits demanded
(kept alive by the side-effecting instruction 2, e.g. `u = and v, 0` whose
result is returned or stored). -/
def exU9 : Instr :=
  { id := 1, intTy := true, width := 8, sideEffects := false
    operands := [Val.instr 0]
    nsw := false, nuw := false, exactFlag := false, metadata := 0 }

/-- Non-integer side-effecting consumer of instruction 1 (e.g. a store of its
value); it is never examined by the propagation because instruction 1 is
externally visible, and it is skipped by the classifier (side effects, no
users). -/
def exW9 : Instr :=
  { id := 2, intTy := false, width := 0, sideEffects := true
    operands := [Val.instr 1]
    nsw := false, nuw := false, exactFlag := false, metadata := 0 }

/-- C9 counterexample function: the all-dead integer instruction 0 is
consumed only by the integer instruction 1, which the side-effecting
instruction 2 keeps alive. -/
def exF9 : Func := { insts := [exI0, exU9, exW9], otherUsers := [], mdUses := [] }

/-- First oracle for `exF9`: instruction 0 is live but all its bits are dead
(its only consumer masks them all away), instruction 1 has all bits demanded
(its value feeds the side-effecting consumer), and nothing is fully dead. -/
def exDB9a : DemandedBits :=
  { demanded := fun i => if i = 1 then 255 else 0, dead := fun _ => false }

/-- Recomputed oracle for the mutated function: instruction 0, now use-empty
and side-effect free, is fully dead; instruction 1 still has all bits
demanded. -/
def exDB9b : DemandedBits :=
  { demanded := fun i => if i = 1 then 255 else 0, dead := fun i => i == 0 }

/-- C9 counterexample: the first run replaces the use of instruction 0 with
zero but keeps the instruction (the oracle did not report it dead, since it
had a live user); a validly recomputed oracle must report the now use-empty
instruction fully dead, so the second run erases it, mutating the function
and returning true.  Every instruction the propagation examines is integer
typed (the assert of `isExternallyVisible` is respected in both runs), and
both oracles satisfy all three spec-modelled contract predicates for their
respective functions. -/
theorem bdce_C9_counterexample :
    wfIds exF9 ∧
    (oracleValidB exF9 exDB9a = true ∧ oracleConsistentB exF9 exDB9a = true ∧
      oracleSoundB exF9 exDB9a = true ∧ scanRespectsAssert exF9 exDB9a = true) ∧
    (bitTrackingDCE exF9 exDB9a).2 = true ∧
    (oracleValidB (bitTrackingDCE exF9 exDB9a).1 exDB9b = true ∧
      oracleConsistentB (bitTrackingDCE exF9 exDB9a).1 exDB9b = true ∧
      oracleSoundB (bitTrackingDCE exF9 exDB9a).1 exDB9b = true ∧
      scanRespectsAssert (bitTrackingDCE exF9 exDB9a).1 exDB9b = true) ∧
    (bitTrackingDCE (bitTrackingDCE exF9 exDB9a).1 exDB9b).2 = true ∧
    (bitTrackingDCE (bitTrackingDCE exF9 exDB9a).1 exDB9b).1
      ≠ (bitTrackingDCE exF9 exDB9a).1 := by
  exact ⟨by unfold wfIds; decide, by decide, by decide, by decide, by decide, by decide⟩

/-- C9 (amended): idempotence holds exactly at a fixed point: if the first
run makes no change, the function is unchanged, the recomputed oracle
coincides with the first, and the second run also returns false.  In general
the first run's replacements can expose newly dead code that a second run
with a fresh oracle still removes (see the counterexample). -/
theorem bdce_C9_amended (F : Func) (DB : DemandedBits)
    (h : (bitTrackingDCE F DB).2 = false) :
    (bitTrackingDCE (bitTrackingDCE F DB).1 DB).2 = false := by
  have h1 : (bitTrackingDCE F DB).1 = F := bdceRun_false_unchanged h
  rw [h1]
  exact h

/-- Witness for the amended C9 at a concrete no-op run. -/
theorem bdce_C9_amended_witness :
    (bitTrackingDCE exF7 exDB7b).2 = false ∧
    (bitTrackingDCE (bitTrackingDCE exF7 exDB7b).1 exDB7b).2 = false :=
  ⟨by decide, bdce_C9_amended exF7 exDB7b (by decide)⟩

/-! ## Looking instructions up through the scan's mutations -/

theorem find_id_map_list (l : List Instr) (g : Instr → Instr)
    (hid : ∀ I, (g I).id = I.id) (i : Nat) :
    (l.map g).find? (fun I => decide (I.id = i))
      = Option.map g (l.find? (fun I => decide (I.id = i))) := by
  rw [List.find?_map]
  have he : ((fun I => decide (I.id = i)) ∘ g) = (fun I : Instr => decide (I.id = i)) := by
    funext I
    simp [hid]
  rw [he]

theorem getInst_clearOn (F : Func) (L : List Nat) (i : Nat) :
    getInst (clearFlagsOn F L) i
      = Option.map (fun I => if I.id ∈ L then I.dropFlags else I) (getInst F i) := by
  unfold getInst clearFlagsOn
  exact find_id_map_list _ _ (fun I => by
    by_cases h : I.id ∈ L <;> simp [h, Instr.dropFlags]) i

theorem getInst_replace (F : Func) (v : Nat) (z : Val) (i : Nat) :
    getInst (replaceNonMetadataUsesWith F v z) i
      = Option.map (fun J => { J with operands := J.operands.map (substVal v z) })
          (getInst F i) := by
  unfold getInst replaceNonMetadataUsesWith
  exact find_id_map_list F.insts
    (fun J => { J with operands := J.operands.map (substVal v z) }) (fun I => rfl) i

theorem getInst_drop (F : Func) (j : Nat) (i : Nat) :
    getInst (dropAllReferences F j) i
      = Option.map (fun J => if J.id = j then { J with operands := [] } else J)
          (getInst F i) := by
  unfold getInst dropAllReferences
  exact find_id_map_list _ _ (fun I => by
    by_cases h : I.id = j <;> simp [h]) i

theorem ops_nil_clearAssumptions {F : Func} {DB : DemandedBits} {v i : Nat}
    (h : ∃ J, getInst F i = some J ∧ J.operands = []) :
    ∃ J, getInst (clearAssumptionsOfUsers F DB v) i = some J ∧ J.operands = [] := by
  obtain ⟨J, hJ, ho⟩ := h
  rw [clearAssumptions_F_eq, getInst_clearOn, hJ]
  by_cases hm : J.id ∈ (clearAssumptionsRun F DB v).visited <;>
    exact ⟨_, rfl, by simp [hm, Instr.dropFlags, ho]⟩

theorem ops_nil_replace {F : Func} {v : Nat} {z : Val} {i : Nat}
    (h : ∃ J, getInst F i = some J ∧ J.operands = []) :
    ∃ J, getInst (replaceNonMetadataUsesWith F v z) i = some J ∧ J.operands = [] := by
  obtain ⟨J, hJ, ho⟩ := h
  rw [getInst_replace, hJ]
  exact ⟨_, rfl, by simp [ho]⟩

theorem ops_nil_drop {F : Func} {j i : Nat}
    (h : ∃ J, getInst F i = some J ∧ J.operands = []) :
    ∃ J, getInst (dropAllReferences F j) i = some J ∧ J.operands = [] := by
  obtain ⟨J, hJ, ho⟩ := h
  rw [getInst_drop, hJ]
  by_cases hm : J.id = j <;> exact ⟨_, rfl, by simp [hm, ho]⟩

theorem trivStep_ops_nil {DB : DemandedBits} {s : ScanState} {j i : Nat} {I : Instr}
    (h : ∃ J, getInst s.F i = some J ∧ J.operands = []) :
    ∃ J, getInst (trivStep DB s j I).F i = some J ∧ J.operands = [] := by
  cases hI : I.intTy with
  | false =>
    rw [trivStep_of_nonint hI]
    exact h
  | true =>
    by_cases h2 : getDemandedBits DB I = 0
    · rw [trivStep_of_fire hI h2]
      exact ops_nil_replace (ops_nil_clearAssumptions h)
    · rw [trivStep_of_livemask hI h2]
      exact h

theorem deadStep_ops_nil {DB : DemandedBits} {s : ScanState} {j i : Nat}
    (h : ∃ J, getInst s.F i = some J ∧ J.operands = []) :
    ∃ J, getInst (deadStep DB s j).F i = some J ∧ J.operands = [] := by
  cases hd : DB.dead j with
  | false =>
    rw [deadStep_of_alive hd]
    exact h
  | true =>
    rw [deadStep_of_dead hd]
    exact ops_nil_drop h

theorem processInst_ops_nil {DB : DemandedBits} {s : ScanState} {j i : Nat}
    (h : ∃ J, getInst s.F i = some J ∧ J.operands = []) :
    ∃ J, getInst (processInst DB s j).F i = some J ∧ J.operands = [] := by
  cases hg : getInst s.F j with
  | none =>
    rw [processInst_of_none hg]
    exact h
  | some I =>
    by_cases hsk : I.sideEffects = true ∧ useEmptyB s.F j = true
    · rw [processInst_of_skip hg hsk.1 hsk.2]
      exact h
    · rw [processInst_of_run hg hsk]
      exact deadStep_ops_nil (trivStep_ops_nil h)

theorem processInst_queue_mono (DB : DemandedBits) (s : ScanState) (j : Nat) :
    ∃ t, (processInst DB s j).queue = s.queue ++ t := by
  cases hg : getInst s.F j with
  | none =>
    rw [processInst_of_none hg]
    exact ⟨[], (List.append_nil _).symm⟩
  | some I =>
    by_cases hsk : I.sideEffects = true ∧ useEmptyB s.F j = true
    · rw [processInst_of_skip hg hsk.1 hsk.2]
      exact ⟨[], (List.append_nil _).symm⟩
    · rw [processInst_of_run hg hsk]
      cases hd : DB.dead j with
      | false =>
        rw [deadStep_of_alive hd]
        refine ⟨[], ?_⟩
        show (trivStep DB s j I).queue = s.queue ++ []
        rw [trivStep_queue, List.append_nil]
      | true =>
        rw [deadStep_of_dead hd]
        refine ⟨[j], ?_⟩
        show (trivStep DB s j I).queue ++ [j] = s.queue ++ [j]
        rw [trivStep_queue]

/-! ## The deferred-removal phase -/

theorem eraseQueue_insts (F : Func) (q : List Nat) :
    (eraseQueue F q).insts = F.insts.filter (fun J => decide (¬ J.id ∈ q)) := by
  induction q generalizing F with
  | nil =>
    show F.insts = _
    have : ∀ J ∈ F.insts, (true : Bool) = decide (¬ J.id ∈ ([] : List Nat)) := by
      intro J _
      simp
    rw [← List.filter_congr this, List.filter_true]
  | cons a q ih =>
    show (eraseQueue { F with insts := F.insts.filter (fun J => decide (¬ J.id = a)) } q).insts = _
    rw [ih, List.filter_filter]
    apply List.filter_congr
    intro J _
    by_cases h1 : J.id = a <;> by_cases h2 : J.id ∈ q <;>
      simp [h1, h2]

theorem mem_eraseQueue {F : Func} {q : List Nat} {J : Instr} :
    J ∈ (eraseQueue F q).insts ↔ J ∈ F.insts ∧ J.id ∉ q := by
  rw [eraseQueue_insts, List.mem_filter]
  simp

theorem find_filter_keep {l : List Instr} {p keep : Instr → Bool}
    (h : ∀ x, p x = true → keep x = true) :
    (l.filter keep).find? p = l.find? p := by
  induction l with
  | nil => rfl
  | cons a tl ih =>
    by_cases hp : p a = true
    · rw [List.filter_cons, if_pos (h a hp), List.find?_cons, List.find?_cons, hp]
    · have hp' : p a = false := by
        cases hpa : p a with
        | false => rfl
        | true => exact absurd hpa hp
      rw [List.filter_cons]
      by_cases hk : keep a = true
      · rw [if_pos hk, List.find?_cons, List.find?_cons, hp']
        exact ih
      · rw [if_neg hk, List.find?_cons, hp']
        exact ih

theorem getInst_eraseQueue {F : Func} {q : List Nat} {i : Nat} (h : i ∉ q) :
    getInst (eraseQueue F q) i = getInst F i := by
  unfold getInst
  rw [eraseQueue_insts]
  apply find_filter_keep
  intro x hx
  rw [decide_eq_true_eq] at hx
  simp [hx, h]

theorem not_mem_instIds_eraseQueue {F : Func} {q : List Nat} {i : Nat} (h : i ∈ q) :
    i ∉ instIds (eraseQueue F q) := by
  intro hmem
  rcases List.mem_map.mp hmem with ⟨J, hJ, hid⟩
  exact (mem_eraseQueue.mp hJ).2 (hid ▸ h)

theorem mem_instIds_eraseQueue {F : Func} {q : List Nat} {i : Nat}
    (h2 : i ∉ q) (h : i ∈ instIds F) : i ∈ instIds (eraseQueue F q) := by
  rcases List.mem_map.mp h with ⟨J, hJ, hid⟩
  exact List.mem_map.mpr ⟨J, mem_eraseQueue.mpr ⟨hJ, hid ▸ h2⟩, hid⟩

/-! ## The dead-instruction claim (C2) -/

theorem forall2_instIds {l₀ l : List Instr} (h : List.Forall₂ TrackRel l₀ l) :
    l.map (fun I => I.id) = l₀.map (fun I => I.id) := by
  induction h with
  | nil => rfl
  | cons hab _ ih =>
    rw [List.map_cons, List.map_cons, hab.1, ih]

theorem tracks_instIds {F₀ F : Func} (h : Tracks F₀ F) : instIds F = instIds F₀ :=
  forall2_instIds h.1

theorem tracks_getInst {F₀ F : Func} (hwf : wfIds F₀) (ht : Tracks F₀ F) {J₀ : Instr}
    (h : J₀ ∈ F₀.insts) : ∃ J, getInst F J₀.id = some J ∧ TrackRel J₀ J := by
  have h0 : getInst F₀ J₀.id = some J₀ := getInst_of_mem_nodup hwf h
  unfold getInst at *
  rcases forall2_find_id ht.1 (fun _ _ hab => hab.1) J₀.id with ⟨h1, _⟩ | ⟨I₀, J, h1, h2, hP⟩
  · rw [h0] at h1
    cases h1
  · rw [h0] at h1
    cases h1
    exact ⟨J, h2, hP⟩

theorem oracleConsistent_spec {F : Func} {DB : DemandedBits}
    (h : oracleConsistentB F DB = true) :
    (∀ J ∈ F.insts, DB.dead J.id = true → J.sideEffects = false) ∧
    (∀ J ∈ F.insts, DB.dead J.id = false → ∀ m, Val.instr m ∈ J.operands →
      DB.dead m = false) := by
  unfold oracleConsistentB at h
  rw [List.all_eq_true] at h
  constructor
  · intro J hJ hd
    have hb := h J hJ
    rw [Bool.and_eq_true] at hb
    have h1 := hb.1
    rw [if_pos hd] at h1
    simpa using h1
  · intro J hJ hd m hm
    have hb := h J hJ
    rw [Bool.and_eq_true] at hb
    have h2 := hb.2
    rw [if_neg (by simp [hd])] at h2
    rw [List.all_eq_true] at h2
    have h3 := h2 (Val.instr m) hm
    simpa using h3

theorem oracleValid_spec {F : Func} {DB : DemandedBits}
    (h : oracleValidB F DB = true) :
    (∀ V ∈ F.insts, useEmptyB F V.id = true → V.sideEffects = false →
      DB.dead V.id = true) ∧
    (∀ V ∈ F.insts, DB.dead V.id = true → V.sideEffects = false) := by
  unfold oracleValidB at h
  rw [List.all_eq_true] at h
  constructor
  · intro V hV hue hse
    have hb := h V hV
    rw [Bool.and_eq_true] at hb
    have h1 := hb.1
    rw [if_pos (by simp [hue, hse])] at h1
    exact h1
  · intro V hV hd
    have hb := h V hV
    rw [Bool.and_eq_true] at hb
    have h2 := hb.2
    rw [if_pos hd] at h2
    simpa using h2

theorem oracleSound_spec {F : Func} {DB : DemandedBits}
    (h : oracleSoundB F DB = true) :
    (∀ V ∈ F.insts, V.intTy = true → 0 < V.width) ∧
    (∀ V ∈ F.insts, ∀ K ∈ F.insts, (K.sideEffects = true ∨ K.intTy = false) →
      Val.instr V.id ∈ K.operands → getDemandedBits DB V = 2 ^ V.width - 1) := by
  unfold oracleSoundB at h
  rw [Bool.and_eq_true, List.all_eq_true, List.all_eq_true] at h
  constructor
  · intro V hV hint
    have h1 := h.1 V hV
    rw [hint] at h1
    simpa using h1
  · intro V hV K hK htrig huse
    have h2 := h.2 V hV
    rw [List.all_eq_true] at h2
    have h3 := h2 K hK
    have hcond : ((K.sideEffects || !K.intTy) &&
        decide (Val.instr V.id ∈ K.operands)) = true := by
      rcases htrig with ht | ht
      · simp [ht, huse]
      · simp [ht, huse]
    rw [if_pos hcond] at h3
    exact of_decide_eq_true h3

theorem c2_fold (F : Func) (DB : DemandedBits) (hwf : wfIds F)
    (hoc : ∀ J ∈ F.insts, DB.dead J.id = true → J.sideEffects = false) :
    ∀ (ids : List Nat) (s : ScanState) (processed : List Nat),
      (∀ j ∈ ids, j ∈ instIds F) →
      Tracks F s.F →
      (∀ j ∈ processed, DB.dead j = true → j ∈ s.queue ∧
        ∃ J, getInst s.F j = some J ∧ J.operands = []) →
      Tracks F (List.foldl (processInst DB) s ids).F ∧
      (∀ j, (j ∈ processed ∨ j ∈ ids) → DB.dead j = true →
        j ∈ (List.foldl (processInst DB) s ids).queue ∧
        ∃ J, getInst (List.foldl (processInst DB) s ids).F j = some J ∧
          J.operands = []) := by
  intro ids
  induction ids with
  | nil =>
    intro s processed _ ht hp
    refine ⟨ht, ?_⟩
    intro j hj hd
    rcases hj with hj | hj
    · exact hp j hj hd
    · cases hj
  | cons a tl ih =>
    intro s processed hids ht hp
    rw [List.foldl_cons]
    have hstep : Tracks F (processInst DB s a).F ∧
        (∀ j ∈ processed ++ [a], DB.dead j = true → j ∈ (processInst DB s a).queue ∧
          ∃ J, getInst (processInst DB s a).F j = some J ∧ J.operands = []) := by
      refine ⟨processInst_tracks ht, ?_⟩
      intro j hj hd
      rcases List.mem_append.mp hj with hj | hj
      · obtain ⟨hq, hops⟩ := hp j hj hd
        obtain ⟨t, hqe⟩ := processInst_queue_mono DB s a
        refine ⟨?_, processInst_ops_nil hops⟩
        rw [hqe]
        exact List.mem_append.mpr (Or.inl hq)
      · -- j = a : the dead branch fires at this very step
        have hja : j = a := by
          rcases List.mem_cons.mp hj with hj | hj
          · exact hj
          · cases hj
        subst hja
        have haI : j ∈ instIds F := hids j (List.mem_cons_self _ _)
        rcases List.mem_map.mp haI with ⟨J₀, hJ₀, hid₀⟩
        obtain ⟨J, hgJ, hrel⟩ := tracks_getInst hwf ht hJ₀
        rw [hid₀] at hgJ
        have hse : J.sideEffects = false := by
          rw [hrel.2.2.2.1]
          exact hoc J₀ hJ₀ (by rw [hid₀]; exact hd)
        have hns : ¬ (J.sideEffects = true ∧ useEmptyB s.F j = true) := by
          rintro ⟨hc, _⟩
          rw [hse] at hc
          cases hc
        rw [processInst_of_run hgJ hns, deadStep_of_dead hd]
        constructor
        · exact List.mem_append.mpr (Or.inr (List.mem_cons_self _ _))
        · show ∃ J', getInst (dropAllReferences (trivStep DB s j J).F j) j = some J' ∧
            J'.operands = []
          have htr : Tracks F (trivStep DB s j J).F := trivStep_tracks ht
          obtain ⟨J2, hgJ2, _⟩ := tracks_getInst hwf htr hJ₀
          rw [hid₀] at hgJ2
          rw [getInst_drop, hgJ2]
          refine ⟨_, rfl, ?_⟩
          have : decide (j = j) = true := by simp
          by_cases hc : J2.id = j
          · simp [hc]
          · -- J2.id = J₀.id = j by the pairing, contradiction
            obtain ⟨J2', hgJ2', hrel2⟩ := tracks_getInst hwf htr hJ₀
            rw [hid₀] at hgJ2'
            rw [hgJ2] at hgJ2'
            cases hgJ2'
            exact absurd (hrel2.1.trans hid₀) hc
    obtain ⟨ht', hfacts⟩ := hstep
    have := ih (processInst DB s a) (processed ++ [a])
      (fun j hj => hids j (List.mem_cons_of_mem _ hj)) ht' hfacts
    refine ⟨this.1, ?_⟩
    intro j hj hd
    apply this.2 j ?_ hd
    rcases hj with hj | hj
    · exact Or.inl (List.mem_append.mpr (Or.inl hj))
    · rcases List.mem_cons.mp hj with hj | hj
      · exact Or.inl (List.mem_append.mpr (Or.inr (hj ▸ List.mem_cons_self _ _)))
      · exact Or.inr hj

/-- C2: an instruction the oracle reports fully dead has its operand
references dropped during the scan while it is still in the instruction list
(deferred erasure), is appended to the removal worklist, and after the
deferred-removal phase it is gone from the function and no remaining
instruction references it as an operand.  The oracle-consistency hypothesis
is modelled from the spec (a fully dead instruction has no required side
effects, and no live instruction consumes a fully dead one). -/
theorem bdce_C2_dead_removal (F : Func) (DB : DemandedBits) (I : Instr)
    (hwf : wfIds F) (hmem : I ∈ F.insts) (hdead : DB.dead I.id = true)
    (hcons : oracleConsistentB F DB = true) :
    I.id ∈ (bdceScan DB F).queue ∧
    (∃ J, getInst (bdceScan DB F).F I.id = some J ∧ J.operands = []) ∧
    I.id ∈ instIds (bdceScan DB F).F ∧
    I.id ∉ instIds (bitTrackingDCE F DB).1 ∧
    (∀ J ∈ (bitTrackingDCE F DB).1.insts, Val.instr I.id ∉ J.operands) := by
  obtain ⟨oc1, oc2⟩ := oracleConsistent_spec hcons
  have hfold := c2_fold F DB hwf oc1 (instIds F)
      { F := F, queue := [], changed := false, log := [] } []
      (fun j hj => hj) (tracks_refl F) (fun j hj => absurd hj (List.not_mem_nil j))
  have hT : Tracks F (bdceScan DB F).F := hfold.1
  have hiid : I.id ∈ instIds F := List.mem_map.mpr ⟨I, hmem, rfl⟩
  have hfacts := hfold.2 I.id (Or.inr hiid) hdead
  refine ⟨hfacts.1, hfacts.2, ?_, ?_, ?_⟩
  · rw [tracks_instIds hT]
    exact hiid
  · show I.id ∉ instIds (eraseQueue (bdceScan DB F).F (bdceScan DB F).queue)
    exact not_mem_instIds_eraseQueue hfacts.1
  · intro J hJ hU
    have hJ' := mem_eraseQueue.mp hJ
    obtain ⟨J₀, hJ₀, hrel⟩ := forall2_mem_right hT.1 J hJ'.1
    have hU₀ : Val.instr I.id ∈ J₀.operands := hrel.2.2.2.2.2 I.id hU
    have hd₀ : DB.dead J₀.id = false := by
      cases hdj : DB.dead J₀.id with
      | false => rfl
      | true =>
        have hJ₀id : J₀.id ∈ instIds F := List.mem_map.mpr ⟨J₀, hJ₀, rfl⟩
        have hq := (hfold.2 J₀.id (Or.inr hJ₀id) hdj).1
        rw [← hrel.1] at hq
        exact absurd hq hJ'.2
    have hcontra : DB.dead I.id = false := oc2 J₀ hJ₀ hd₀ I.id hU₀
    rw [hcontra] at hdead
    exact absurd hdead (by simp)

/-- Oracle reporting everything fully dead (consistent on `exF7`). -/
def exDB2 : DemandedBits := { demanded := fun _ => 0, dead := fun _ => true }

/-- Witness for C2 at a concrete input: the sole (dead) instruction is erased
by the pass. -/
theorem bdce_C2_witness :
    wfIds exF7 ∧ exI0 ∈ exF7.insts ∧ exDB2.dead exI0.id = true ∧
    oracleConsistentB exF7 exDB2 = true ∧
    exI0.id ∉ instIds (bitTrackingDCE exF7 exDB2).1 :=
  ⟨by unfold wfIds; decide, by decide, by decide, by decide,
    (bdce_C2_dead_removal exF7 exDB2 exI0 (by unfold wfIds; decide) (by decide)
      (by decide) (by decide)).2.2.2.1⟩

/-! ## The side-effecting skip claim (C4) -/

theorem getInst_id {F : Func} {i : Nat} {J : Instr} (h : getInst F i = some J) :
    J.id = i := by
  unfold getInst at h
  have := List.find?_some h
  simpa using this

theorem getInst_mem {F : Func} {i : Nat} {J : Instr} (h : getInst F i = some J) :
    J ∈ F.insts := by
  have h' : F.insts.find? (fun I => decide (I.id = i)) = some J := h
  exact List.mem_of_find?_eq_some h'

/-- A user backtracking step: an instruction user in a scan-current function
was already an instruction user in the original function, with the original
carrying the same id. -/
theorem tracked_user_back {F G : Func} (hT : Tracks F G)
    {k v : Nat} (h : UserRef.inst k ∈ userRefs G v) :
    ∃ W₀ ∈ F.insts, W₀.id = k ∧ Val.instr v ∈ W₀.operands := by
  obtain ⟨W, hW, hid, ho⟩ := userRefs_inst_elim h
  obtain ⟨W₀, hW₀, hrel⟩ := forall2_mem_right hT.1 W hW
  rw [hrel.1] at hid
  exact ⟨W₀, hW₀, hid, hrel.2.2.2.2.2 v ho⟩

/-- Backtracking the instruction found at id `j` in a scan-current function
to the original instruction at that id: identity, type, width and
side-effect flag agree. -/
theorem tracked_inst_back {F G : Func} (hT : Tracks F G)
    {j : Nat} {K : Instr} (hgK : getInst G j = some K) :
    ∃ J₀ ∈ F.insts, J₀.id = j ∧ K.intTy = J₀.intTy ∧ K.width = J₀.width ∧
      K.sideEffects = J₀.sideEffects ∧ K.id = J₀.id := by
  have hKid : K.id = j := getInst_id hgK
  obtain ⟨J₀, hJ₀, hrel⟩ := forall2_mem_right hT.1 K (getInst_mem hgK)
  rw [hrel.1] at hKid
  exact ⟨J₀, hJ₀, hKid, hrel.2.1, hrel.2.2.1, hrel.2.2.2.1, hrel.1⟩

/-- Under the modelled oracle soundness, every id a propagation run launched
from a genuinely trivialized instruction queries the oracle on denotes a
side-effect free, integer-typed instruction of the original function. -/
theorem qlog_user_sound (F : Func) (DB : DemandedBits)
    (hsound : oracleSoundB F DB = true)
    {G : Func} (hT : Tracks F G) {j : Nat} {K : Instr}
    (hgK : getInst G j = some K) (hKint : K.intTy = true)
    (hKmask : getDemandedBits DB K = 0) :
    ∀ k ∈ (clearAssumptionsRun G DB j).qlog,
      ∃ W₀ ∈ F.insts, W₀.id = k ∧ W₀.sideEffects = false ∧ W₀.intTy = true := by
  obtain ⟨hpos, hall⟩ := oracleSound_spec hsound
  intro k hk
  rcases wl_qlog_src G DB j k hk with hu | ⟨x, hxR, hu⟩
  · -- k is a user of the trivialized instruction j itself
    obtain ⟨W₀, hW₀, hWid, hWop⟩ := tracked_user_back hT hu
    obtain ⟨J₀, hJ₀, hJid, hJint, hJw, _, hJid'⟩ := tracked_inst_back hT hgK
    have hJmask : getDemandedBits DB J₀ = 0 := by
      unfold getDemandedBits at hKmask ⊢
      rw [← hJid', ← hJw]
      exact hKmask
    by_cases hW : W₀.sideEffects = true ∨ W₀.intTy = false
    · -- then J₀'s mask would be all-ones, but it is zero over a positive width
      have hml := hall J₀ hJ₀ W₀ hW₀ hW (by rw [hJid]; exact hWop)
      have hw0 : 0 < J₀.width := hpos J₀ hJ₀ (by rw [← hJint]; exact hKint)
      rw [hJmask] at hml
      have h2 : 2 ≤ 2 ^ J₀.width := by
        calc 2 = 2 ^ 1 := rfl
        _ ≤ 2 ^ J₀.width := Nat.pow_le_pow_right (by omega) hw0
      omega
    · have hseW : W₀.sideEffects = false := by
        cases hc : W₀.sideEffects with
        | false => rfl
        | true => exact absurd (Or.inl hc) hW
      have hintW : W₀.intTy = true := by
        cases hc : W₀.intTy with
        | true => rfl
        | false => exact absurd (Or.inr hc) hW
      exact ⟨W₀, hW₀, hWid, hseW, hintW⟩
  · -- k is a user of a walked (hence not externally visible) instruction x
    obtain ⟨X, hgX, hXint, hXmask⟩ := extvisAt_false_elim (reachElig_not_extvis hxR)
    obtain ⟨W₀, hW₀, hWid, hWop⟩ := tracked_user_back hT hu
    obtain ⟨X₀, hX₀, hXid, hXint', hXw, _, hXid'⟩ := tracked_inst_back hT hgX
    by_cases hW : W₀.sideEffects = true ∨ W₀.intTy = false
    · -- then x's mask would be all-ones, but x was walked as not all-ones
      have hml := hall X₀ hX₀ W₀ hW₀ hW (by rw [hXid]; exact hWop)
      have hmm : getDemandedBits DB X₀ = getDemandedBits DB X := by
        unfold getDemandedBits
        rw [← hXid', ← hXw]
      rw [hmm] at hml
      rw [← hXw] at hml
      exact absurd hml hXmask
    · have hseW : W₀.sideEffects = false := by
        cases hc : W₀.sideEffects with
        | false => rfl
        | true => exact absurd (Or.inl hc) hW
      have hintW : W₀.intTy = true := by
        cases hc : W₀.intTy with
        | true => rfl
        | false => exact absurd (Or.inr hc) hW
      exact ⟨W₀, hW₀, hWid, hseW, hintW⟩

/-- Under the modelled oracle soundness a side-effecting instruction is never
the target of a propagation oracle query. -/
theorem sound_no_prop_query (F : Func) (DB : DemandedBits) (I : Instr)
    (hwf : wfIds F) (hmem : I ∈ F.insts) (hse : I.sideEffects = true)
    (hsound : oracleSoundB F DB = true)
    {G : Func} (hT : Tracks F G) {j : Nat} {K : Instr}
    (hgK : getInst G j = some K) (hKint : K.intTy = true)
    (hKmask : getDemandedBits DB K = 0) :
    I.id ∉ (clearAssumptionsRun G DB j).qlog := by
  intro hq
  obtain ⟨W₀, hW₀, hWid, hWse, _⟩ :=
    qlog_user_sound F DB hsound hT hgK hKint hKmask I.id hq
  have hWI : W₀ = I := nodup_id_unique hwf hW₀ hmem hWid
  rw [hWI, hse] at hWse
  cases hWse

theorem hasUse_clearAssumptions_back {F : Func} {DB : DemandedBits} {v i : Nat}
    (h : hasInstrUse (clearAssumptionsOfUsers F DB v) i) : hasInstrUse F i := by
  rw [clearAssumptions_F_eq] at h
  exact hasInstrUse_clearOn.mp h

theorem trivStep_hasUse_back {DB : DemandedBits} {s : ScanState} {j i : Nat} {I : Instr}
    (h : hasInstrUse (trivStep DB s j I).F i) : hasInstrUse s.F i := by
  cases hI : I.intTy with
  | false =>
    rw [trivStep_of_nonint hI] at h
    exact h
  | true =>
    by_cases h2 : getDemandedBits DB I = 0
    · rw [trivStep_of_fire hI h2] at h
      exact hasUse_clearAssumptions_back (hasInstrUse_replace_back h)
    · rw [trivStep_of_livemask hI h2] at h
      exact h

theorem deadStep_hasUse_back {DB : DemandedBits} {s : ScanState} {j i : Nat}
    (h : hasInstrUse (deadStep DB s j).F i) : hasInstrUse s.F i := by
  cases hd : DB.dead j with
  | false =>
    rw [deadStep_of_alive hd] at h
    exact h
  | true =>
    rw [deadStep_of_dead hd] at h
    exact hasInstrUse_drop_back h

theorem processInst_hasUse_back {DB : DemandedBits} {s : ScanState} {j i : Nat}
    (h : hasInstrUse (processInst DB s j).F i) : hasInstrUse s.F i := by
  cases hg : getInst s.F j with
  | none =>
    rw [processInst_of_none hg] at h
    exact h
  | some I =>
    by_cases hsk : I.sideEffects = true ∧ useEmptyB s.F j = true
    · rw [processInst_of_skip hg hsk.1 hsk.2] at h
      exact h
    · rw [processInst_of_run hg hsk] at h
      exact trivStep_hasUse_back (deadStep_hasUse_back h)

theorem ops_len_clearAssumptions {F : Func} {DB : DemandedBits} {v i n : Nat}
    (h : ∃ J, getInst F i = some J ∧ J.operands.length = n) :
    ∃ J, getInst (clearAssumptionsOfUsers F DB v) i = some J ∧
      J.operands.length = n := by
  obtain ⟨J, hJ, ho⟩ := h
  rw [clearAssumptions_F_eq, getInst_clearOn, hJ]
  by_cases hm : J.id ∈ (clearAssumptionsRun F DB v).visited <;>
    exact ⟨_, rfl, by simp [hm, Instr.dropFlags, ho]⟩

theorem ops_len_replace {F : Func} {v : Nat} {z : Val} {i n : Nat}
    (h : ∃ J, getInst F i = some J ∧ J.operands.length = n) :
    ∃ J, getInst (replaceNonMetadataUsesWith F v z) i = some J ∧
      J.operands.length = n := by
  obtain ⟨J, hJ, ho⟩ := h
  rw [getInst_replace, hJ]
  exact ⟨_, rfl, by simp [ho]⟩

theorem ops_len_drop {F : Func} {j i n : Nat} (hne : ¬ i = j)
    (h : ∃ J, getInst F i = some J ∧ J.operands.length = n) :
    ∃ J, getInst (dropAllReferences F j) i = some J ∧ J.operands.length = n := by
  obtain ⟨J, hJ, ho⟩ := h
  rw [getInst_drop, hJ]
  have hid : J.id = i := getInst_id hJ
  refine ⟨_, rfl, ?_⟩
  show (if J.id = j then { J with operands := ([] : List Val) } else J).operands.length = n
  rw [if_neg (by rw [hid]; exact hne)]
  exact ho

theorem trivStep_log (DB : DemandedBits) (s : ScanState) (j : Nat) (I : Instr) :
    ∃ t, (trivStep DB s j I).log = s.log ++ t ∧
      ∀ e ∈ t, e = Query.scanDemanded j ∨ ∃ m, e = Query.propDemanded m := by
  cases hI : I.intTy with
  | false =>
    rw [trivStep_of_nonint hI]
    exact ⟨[], (List.append_nil _).symm, fun e he => absurd he (List.not_mem_nil e)⟩
  | true =>
    by_cases h2 : getDemandedBits DB I = 0
    · rw [trivStep_of_fire hI h2]
      refine ⟨[Query.scanDemanded j]
          ++ (clearAssumptionsRun s.F DB j).qlog.map Query.propDemanded, ?_, ?_⟩
      · rw [List.append_assoc]
      · intro e he
        rcases List.mem_append.mp he with he | he
        · rcases List.mem_cons.mp he with he | he
          · exact Or.inl he
          · cases he
        · rcases List.mem_map.mp he with ⟨m, _, hm⟩
          exact Or.inr ⟨m, hm.symm⟩
    · rw [trivStep_of_livemask hI h2]
      refine ⟨[Query.scanDemanded j], rfl, ?_⟩
      intro e he
      rcases List.mem_cons.mp he with he | he
      · exact Or.inl he
      · cases he

theorem deadStep_log (DB : DemandedBits) (s : ScanState) (j : Nat) :
    (deadStep DB s j).log = s.log ++ [Query.scanDead j] := by
  cases hd : DB.dead j with
  | false => rw [deadStep_of_alive hd]
  | true => rw [deadStep_of_dead hd]

theorem trivStep_ops_len {DB : DemandedBits} {s : ScanState} {j i n : Nat} {I : Instr}
    (h : ∃ J, getInst s.F i = some J ∧ J.operands.length = n) :
    ∃ J, getInst (trivStep DB s j I).F i = some J ∧ J.operands.length = n := by
  cases hI : I.intTy with
  | false =>
    rw [trivStep_of_nonint hI]
    exact h
  | true =>
    by_cases h2 : getDemandedBits DB I = 0
    · rw [trivStep_of_fire hI h2]
      exact ops_len_replace (ops_len_clearAssumptions h)
    · rw [trivStep_of_livemask hI h2]
      exact h

theorem deadStep_ops_len {DB : DemandedBits} {s : ScanState} {j i n : Nat}
    (hne : ¬ i = j) (h : ∃ J, getInst s.F i = some J ∧ J.operands.length = n) :
    ∃ J, getInst (deadStep DB s j).F i = some J ∧ J.operands.length = n := by
  cases hd : DB.dead j with
  | false =>
    rw [deadStep_of_alive hd]
    exact h
  | true =>
    rw [deadStep_of_dead hd]
    exact ops_len_drop hne h

/-- Invariant carried through the scan for a side-effecting use-empty
instruction `I`: the scan has queried the oracle for it neither from the
classifier loop nor from any propagation run, has not queued it, the function
still has no use of it, and its operand list still has its original length. -/
def C4Inv (F : Func) (I : Instr) (s : ScanState) : Prop :=
  Tracks F s.F ∧ ¬ hasInstrUse s.F I.id ∧ I.id ∉ s.queue ∧
  Query.scanDemanded I.id ∉ s.log ∧ Query.scanDead I.id ∉ s.log ∧
  Query.propDemanded I.id ∉ s.log ∧
  (∃ J, getInst s.F I.id = some J ∧ J.operands.length = I.operands.length)

theorem c4_step (F : Func) (DB : DemandedBits) (I : Instr) (hwf : wfIds F)
    (hmem : I ∈ F.insts) (hse : I.sideEffects = true)
    (hsound : oracleSoundB F DB = true)
    {s : ScanState} (j : Nat) (inv : C4Inv F I s) : C4Inv F I (processInst DB s j) := by
  obtain ⟨hT, hU, hq, hl1, hl2, hl3, hops⟩ := inv
  by_cases hji : j = I.id
  · subst hji
    obtain ⟨J, hgJ, hrel⟩ := tracks_getInst hwf hT hmem
    have hJse : J.sideEffects = true := by
      rw [hrel.2.2.2.1]
      exact hse
    have hJue : useEmptyB s.F I.id = true := useEmptyB_iff_not_hasInstrUse.mpr hU
    rw [processInst_of_skip hgJ hJse hJue]
    exact ⟨hT, hU, hq, hl1, hl2, hl3, hops⟩
  · cases hg : getInst s.F j with
    | none =>
      rw [processInst_of_none hg]
      exact ⟨hT, hU, hq, hl1, hl2, hl3, hops⟩
    | some K =>
      by_cases hsk : K.sideEffects = true ∧ useEmptyB s.F j = true
      · rw [processInst_of_skip hg hsk.1 hsk.2]
        exact ⟨hT, hU, hq, hl1, hl2, hl3, hops⟩
      · rw [processInst_of_run hg hsk]
        have htq : (trivStep DB s j K).queue = s.queue := trivStep_queue DB s j K
        have hlog : Query.scanDemanded I.id ∉ (trivStep DB s j K).log ∧
            Query.scanDead I.id ∉ (trivStep DB s j K).log ∧
            Query.propDemanded I.id ∉ (trivStep DB s j K).log := by
          cases hKint : K.intTy with
          | false =>
            rw [trivStep_of_nonint hKint]
            exact ⟨hl1, hl2, hl3⟩
          | true =>
            by_cases hm : getDemandedBits DB K = 0
            · rw [trivStep_of_fire hKint hm]
              have hnq : I.id ∉ (clearAssumptionsRun s.F DB j).qlog :=
                sound_no_prop_query F DB I hwf hmem hse hsound hT hg hKint hm
              refine ⟨?_, ?_, ?_⟩
              · intro hc
                rcases List.mem_append.mp hc with hc | hc
                · rcases List.mem_append.mp hc with hc | hc
                  · exact hl1 hc
                  · rcases List.mem_cons.mp hc with hc | hc
                    · injection hc with hc
                      exact hji hc.symm
                    · cases hc
                · rcases List.mem_map.mp hc with ⟨m, _, hme⟩
                  cases hme
              · intro hc
                rcases List.mem_append.mp hc with hc | hc
                · rcases List.mem_append.mp hc with hc | hc
                  · exact hl2 hc
                  · rcases List.mem_cons.mp hc with hc | hc
                    · cases hc
                    · cases hc
                · rcases List.mem_map.mp hc with ⟨m, _, hme⟩
                  cases hme
              · intro hc
                rcases List.mem_append.mp hc with hc | hc
                · rcases List.mem_append.mp hc with hc | hc
                  · exact hl3 hc
                  · rcases List.mem_cons.mp hc with hc | hc
                    · cases hc
                    · cases hc
                · rcases List.mem_map.mp hc with ⟨m, hmq, hme⟩
                  injection hme with hme
                  rw [hme] at hmq
                  exact hnq hmq
            · rw [trivStep_of_livemask hKint hm]
              refine ⟨?_, ?_, ?_⟩
              · intro hc
                rcases List.mem_append.mp hc with hc | hc
                · exact hl1 hc
                · rcases List.mem_cons.mp hc with hc | hc
                  · injection hc with hc
                    exact hji hc.symm
                  · cases hc
              · intro hc
                rcases List.mem_append.mp hc with hc | hc
                · exact hl2 hc
                · rcases List.mem_cons.mp hc with hc | hc
                  · cases hc
                  · cases hc
              · intro hc
                rcases List.mem_append.mp hc with hc | hc
                · exact hl3 hc
                · rcases List.mem_cons.mp hc with hc | hc
                  · cases hc
                  · cases hc
        refine ⟨deadStep_tracks (trivStep_tracks hT),
          fun h => hU (trivStep_hasUse_back (deadStep_hasUse_back h)), ?_, ?_, ?_, ?_, ?_⟩
        · cases hd : DB.dead j with
          | false =>
            rw [deadStep_of_alive hd]
            show I.id ∉ (trivStep DB s j K).queue
            rw [htq]
            exact hq
          | true =>
            rw [deadStep_of_dead hd]
            show I.id ∉ (trivStep DB s j K).queue ++ [j]
            rw [htq]
            intro hc
            rcases List.mem_append.mp hc with hc | hc
            · exact hq hc
            · rcases List.mem_cons.mp hc with hc | hc
              · exact hji hc.symm
              · cases hc
        · rw [deadStep_log]
          intro hc
          rcases List.mem_append.mp hc with hc | hc
          · exact hlog.1 hc
          · rcases List.mem_cons.mp hc with hc | hc
            · cases hc
            · cases hc
        · rw [deadStep_log]
          intro hc
          rcases List.mem_append.mp hc with hc | hc
          · exact hlog.2.1 hc
          · rcases List.mem_cons.mp hc with hc | hc
            · injection hc with hc
              exact hji hc.symm
            · cases hc
        · rw [deadStep_log]
          intro hc
          rcases List.mem_append.mp hc with hc | hc
          · exact hlog.2.2 hc
          · rcases List.mem_cons.mp hc with hc | hc
            · cases hc
            · cases hc
        · exact deadStep_ops_len (fun he => hji he.symm) (trivStep_ops_len hops)

theorem foldl_pres {P : ScanState → Prop} (DB : DemandedBits)
    (hstep : ∀ s j, P s → P (processInst DB s j)) :
    ∀ (ids : List Nat) (s : ScanState), P s → P (List.foldl (processInst DB) s ids) := by
  intro ids
  induction ids with
  | nil =>
    intro s h
    exact h
  | cons a tl ih =>
    intro s h
    rw [List.foldl_cons]
    exact ih _ (hstep s a h)

/-- C4: an instruction `I` that may have side effects and has no non-debug
users is skipped entirely: no oracle query of any kind targets it (no
classifier demanded-bits or dead query, and no propagation demanded-bits
query — under the spec's oracle contract a value consumed by a side-effecting
user has all bits demanded, so nothing `I` consumes is ever trivialized or
walked), its uses are never replaced, its operand references are never
dropped, and it is never queued or erased.  The contract hypothesis
`oracleSoundB` is modelled from the spec, the demanded-bits analysis being
absent from the translated source. -/
theorem bdce_C4_skip (F : Func) (DB : DemandedBits) (I : Instr)
    (hwf : wfIds F) (hmem : I ∈ F.insts) (hse : I.sideEffects = true)
    (hue : useEmptyB F I.id = true) (hsound : oracleSoundB F DB = true) :
    Query.scanDemanded I.id ∉ (bdceRun F DB).log ∧
    Query.scanDead I.id ∉ (bdceRun F DB).log ∧
    Query.propDemanded I.id ∉ (bdceRun F DB).log ∧
    I.id ∉ (bdceScan DB F).queue ∧
    I.id ∈ instIds (bdceRun F DB).F ∧
    (∃ J, getInst (bdceRun F DB).F I.id = some J ∧
      J.operands.length = I.operands.length) ∧
    (∀ J ∈ (bdceRun F DB).F.insts, Val.instr I.id ∉ J.operands) := by
  have hinv0 : C4Inv F I { F := F, queue := [], changed := false, log := [] } :=
    ⟨tracks_refl F, fun h => (useEmptyB_iff_not_hasInstrUse.mp hue) h,
      by simp, by simp, by simp, by simp, ⟨I, getInst_of_mem_nodup hwf hmem, rfl⟩⟩
  have hinv : C4Inv F I (bdceScan DB F) :=
    foldl_pres DB (fun s j h => c4_step F DB I hwf hmem hse hsound j h)
      (instIds F) _ hinv0
  unfold C4Inv at hinv
  obtain ⟨hT, hU, hq, hl1, hl2, hl3, hops⟩ := hinv
  have hFeq : (bdceRun F DB).F = eraseQueue (bdceScan DB F).F (bdceScan DB F).queue := rfl
  refine ⟨hl1, hl2, hl3, hq, ?_, ?_, ?_⟩
  · rw [hFeq]
    exact mem_instIds_eraseQueue hq
      (by rw [tracks_instIds hT]; exact List.mem_map.mpr ⟨I, hmem, rfl⟩)
  · rw [hFeq, getInst_eraseQueue hq]
    exact hops
  · intro J hJ hUo
    rw [hFeq] at hJ
    exact hU (Or.inl ⟨J, (mem_eraseQueue.mp hJ).1, hUo⟩)

/-- Integer user of instruction 0, not externally visible, so the propagation
walks it when instruction 0 is trivialized. -/
def exU4 : Instr :=
  { id := 1, intTy := true, width := 8, sideEffects := false
    operands := [Val.instr 0]
    nsw := true, nuw := false, exactFlag := false, metadata := 0 }

/-- A side-effecting, use-empty instruction consuming nothing (e.g. a
fence). -/
def exI4 : Instr :=
  { id := 2, intTy := false, width := 0, sideEffects := true, operands := []
    nsw := false, nuw := false, exactFlag := false, metadata := 0 }

/-- C4 witness function: instruction 0 is trivialized and its user walked,
while the side-effecting unused instruction 2 stands by. -/
def exF4 : Func := { insts := [exI0, exU4, exI4], otherUsers := [], mdUses := [] }

/-- C4 witness oracle: instruction 0 all dead, its user partially demanded,
nothing fully dead; it satisfies the modelled soundness contract. -/
def exDB4 : DemandedBits :=
  { demanded := fun i => if i = 1 then 5 else 0, dead := fun _ => false }

/-- Witness for C4 at a concrete input: a trivialization and a propagation
walk do happen, yet no query in the whole run targets the side-effecting
use-empty instruction, which survives untouched. -/
theorem bdce_C4_witness :
    exI4.sideEffects = true ∧ useEmptyB exF4 exI4.id = true ∧
    oracleSoundB exF4 exDB4 = true ∧
    Query.propDemanded exU4.id ∈ (bdceRun exF4 exDB4).log ∧
    Query.propDemanded exI4.id ∉ (bdceRun exF4 exDB4).log ∧
    exI4.id ∉ (bdceScan exDB4 exF4).queue ∧
    exI4.id ∈ instIds (bdceRun exF4 exDB4).F :=
  ⟨by decide, by decide, by decide, by decide,
    (bdce_C4_skip exF4 exDB4 exI4 (by unfold wfIds; decide) (by decide)
      (by decide) (by decide) (by decide)).2.2.1,
    (bdce_C4_skip exF4 exDB4 exI4 (by unfold wfIds; decide) (by decide)
      (by decide) (by decide) (by decide)).2.2.2.1,
    (bdce_C4_skip exF4 exDB4 exI4 (by unfold wfIds; decide) (by decide)
      (by decide) (by decide) (by decide)).2.2.2.2.1⟩

/-- One scan step preserves "every propagation query so far targeted an
integer-typed instruction" under the modelled oracle soundness. -/
theorem assert_ok_step (F : Func) (DB : DemandedBits) (hwf : wfIds F)
    (hsound : oracleSoundB F DB = true) {s : ScanState} (j : Nat)
    (inv : Tracks F s.F ∧ ∀ k, Query.propDemanded k ∈ s.log → intTyAt F k = true) :
    Tracks F (processInst DB s j).F ∧
      ∀ k, Query.propDemanded k ∈ (processInst DB s j).log → intTyAt F k = true := by
  obtain ⟨hT, hL⟩ := inv
  refine ⟨processInst_tracks hT, ?_⟩
  cases hg : getInst s.F j with
  | none =>
    rw [processInst_of_none hg]
    exact hL
  | some K =>
    by_cases hsk : K.sideEffects = true ∧ useEmptyB s.F j = true
    · rw [processInst_of_skip hg hsk.1 hsk.2]
      exact hL
    · rw [processInst_of_run hg hsk]
      intro k hc
      rw [deadStep_log] at hc
      rcases List.mem_append.mp hc with hc | hc
      · revert hc
        cases hKint : K.intTy with
        | false =>
          rw [trivStep_of_nonint hKint]
          exact hL k
        | true =>
          by_cases hm : getDemandedBits DB K = 0
          · rw [trivStep_of_fire hKint hm]
            intro hc
            rcases List.mem_append.mp hc with hc | hc
            · rcases List.mem_append.mp hc with hc | hc
              · exact hL k hc
              · rcases List.mem_cons.mp hc with hc | hc
                · cases hc
                · cases hc
            · rcases List.mem_map.mp hc with ⟨m, hmq, hme⟩
              injection hme with hme
              subst hme
              obtain ⟨W₀, hW₀, hWid, _, hWint⟩ :=
                qlog_user_sound F DB hsound hT hg hKint hm m hmq
              unfold intTyAt
              rw [← hWid, getInst_of_mem_nodup hwf hW₀]
              exact hWint
          · rw [trivStep_of_livemask hKint hm]
            intro hc
            rcases List.mem_append.mp hc with hc | hc
            · exact hL k hc
            · rcases List.mem_cons.mp hc with hc | hc
              · cases hc
              · cases hc
      · rcases List.mem_cons.mp hc with hc | hc
        · cases hc
        · cases hc

/-- Under the modelled oracle contract the pass cannot hit the integer-typing
assert of `isExternallyVisible`: every propagation demanded-bits query of one
whole scan targets an integer-typed instruction. -/
theorem assert_ok_fold (F : Func) (DB : DemandedBits) (hwf : wfIds F)
    (hsound : oracleSoundB F DB = true) :
    ∀ (ids : List Nat) (s : ScanState),
      Tracks F s.F → (∀ k, Query.propDemanded k ∈ s.log → intTyAt F k = true) →
      Tracks F (List.foldl (processInst DB) s ids).F ∧
        ∀ k, Query.propDemanded k ∈ (List.foldl (processInst DB) s ids).log →
          intTyAt F k = true := by
  intro ids
  induction ids with
  | nil =>
    intro s hT hL
    exact ⟨hT, hL⟩
  | cons a tl ih =>
    intro s hT hL
    rw [List.foldl_cons]
    obtain ⟨hT', hL'⟩ := assert_ok_step F DB hwf hsound a ⟨hT, hL⟩
    exact ih _ hT' hL'

theorem scan_assert_ok_of_sound (F : Func) (DB : DemandedBits)
    (hwf : wfIds F) (hsound : oracleSoundB F DB = true) :
    scanRespectsAssert F DB = true := by
  have hinv := assert_ok_fold F DB hwf hsound (instIds F)
    { F := F, queue := [], changed := false, log := [] } (tracks_refl F)
    (fun k hc => absurd hc (List.not_mem_nil _))
  unfold scanRespectsAssert
  rw [List.all_eq_true]
  intro q hq
  have hq' : q ∈ (bdceScan DB F).log := hq
  cases q with
  | scanDemanded m => rfl
  | scanDead m => rfl
  | propDemanded m => exact hinv.2 m hq'

/-! ## The change flag is exactly mutation (C7) -/

/-- Per-slot relation of the scan: a use slot is unchanged or has been
replaced by a zero constant. -/
def slotZero (a b : Val) : Prop := b = a ∨ ∃ w, b = Val.const w 0

/-- Witness that some use slot of the original function has been zeroed in
place: an instruction operand slot, or a non-instruction use, at the same
position, held an instruction reference and now holds a zero constant. -/
def SlotZ (F G : Func) : Prop :=
  (∃ n p : Nat, ∃ J₀ J : Instr, ∃ m w : Nat,
    F.insts[n]? = some J₀ ∧ G.insts[n]? = some J ∧
    J₀.operands[p]? = some (Val.instr m) ∧ J.operands[p]? = some (Val.const w 0)) ∨
  (∃ n : Nat, ∃ q₀ q : Nat × Val, ∃ m w : Nat,
    F.otherUsers[n]? = some q₀ ∧ G.otherUsers[n]? = some q ∧
    q₀.2 = Val.instr m ∧ q.2 = Val.const w 0)

/-- Positional slot tracking available while nothing has been queued: every
operand slot and every non-instruction use is unchanged or zeroed in place
(no operand list has been dropped). -/
def ShapeZ (F G : Func) : Prop :=
  List.Forall₂ (fun J₀ J => List.Forall₂ slotZero J₀.operands J.operands)
    F.insts G.insts ∧
  List.Forall₂ (fun q₀ q : Nat × Val => q.1 = q₀.1 ∧ slotZero q₀.2 q.2)
    F.otherUsers G.otherUsers

theorem slotZero_refl (a : Val) : slotZero a a := Or.inl rfl

theorem slotZero_subst {a b : Val} (v w : Nat) (h : slotZero a b) :
    slotZero a (substVal v (Val.const w 0) b) := by
  unfold substVal
  by_cases hb : b = Val.instr v
  · rw [if_pos hb]
    exact Or.inr ⟨w, rfl⟩
  · rw [if_neg hb]
    exact h

theorem shapeZ_refl (F : Func) : ShapeZ F F := by
  constructor
  · exact List.forall₂_same.mpr
      (fun J _ => List.forall₂_same.mpr (fun a _ => slotZero_refl a))
  · exact List.forall₂_same.mpr (fun q _ => ⟨rfl, slotZero_refl q.2⟩)

theorem shapeZ_clearOn {F G : Func} {L : List Nat} (h : ShapeZ F G) :
    ShapeZ F (clearFlagsOn G L) := by
  refine ⟨?_, h.2⟩
  exact forall2_map_rel h.1 _
    (fun a b hab => by
      rw [(flagOnly_clearOn L).operandsEq b]
      exact hab)

theorem shapeZ_replace {F G : Func} {v w : Nat} (h : ShapeZ F G) :
    ShapeZ F (replaceNonMetadataUsesWith G v (Val.const w 0)) := by
  constructor
  · exact forall2_map_rel h.1 _
      (fun a b hab => forall2_map_rel hab _ (fun x y hxy => slotZero_subst v w hxy))
  · exact forall2_map_rel h.2 _
      (fun a b hab => ⟨hab.1, slotZero_subst v w hab.2⟩)

theorem shapeZ_clearAssumptions {F G : Func} {DB : DemandedBits} {v : Nat}
    (h : ShapeZ F G) : ShapeZ F (clearAssumptionsOfUsers G DB v) := by
  rw [clearAssumptions_F_eq]
  exact shapeZ_clearOn h

theorem slotZ_mapF {F G : Func} (g : Instr → Instr)
    (hops : ∀ I, (g I).operands = I.operands)
    (h : SlotZ F G) : SlotZ F { G with insts := G.insts.map g } := by
  rcases h with ⟨n, p, J₀, J, m, w, h1, h2, h3, h4⟩ | hoth
  · refine Or.inl ⟨n, p, J₀, g J, m, w, h1, ?_, h3, ?_⟩
    · show (G.insts.map g)[n]? = some (g J)
      rw [List.getElem?_map, h2]
      rfl
    · rw [hops]
      exact h4
  · exact Or.inr hoth

theorem slotZ_clearOn {F G : Func} {L : List Nat} (h : SlotZ F G) :
    SlotZ F (clearFlagsOn G L) :=
  slotZ_mapF _ (fun I => (flagOnly_clearOn L).operandsEq I) h

theorem slotZ_replace {F G : Func} {v w' : Nat} (h : SlotZ F G) :
    SlotZ F (replaceNonMetadataUsesWith G v (Val.const w' 0)) := by
  rcases h with ⟨n, p, J₀, J, m, w, h1, h2, h3, h4⟩ |
    ⟨n, q₀, q, m, w, h1, h2, h3, h4⟩
  · refine Or.inl ⟨n, p, J₀,
      { J with operands := J.operands.map (substVal v (Val.const w' 0)) },
      m, w, h1, ?_, h3, ?_⟩
    · show (G.insts.map _)[n]? = _
      rw [List.getElem?_map, h2]
      rfl
    · show (J.operands.map (substVal v (Val.const w' 0)))[p]? = some (Val.const w 0)
      rw [List.getElem?_map, h4]
      show some (substVal v (Val.const w' 0) (Val.const w 0)) = some (Val.const w 0)
      unfold substVal
      rw [if_neg (by intro hc; cases hc)]
  · refine Or.inr ⟨n, q₀, (q.1, substVal v (Val.const w' 0) q.2), m, w, h1, ?_, h3, ?_⟩
    · show (G.otherUsers.map _)[n]? = _
      rw [List.getElem?_map, h2]
      rfl
    · show substVal v (Val.const w' 0) q.2 = Val.const w 0
      rw [h4]
      unfold substVal
      rw [if_neg (by intro hc; cases hc)]

theorem slotZ_clearAssumptions {F G : Func} {DB : DemandedBits} {v : Nat}
    (h : SlotZ F G) : SlotZ F (clearAssumptionsOfUsers G DB v) := by
  rw [clearAssumptions_F_eq]
  exact slotZ_clearOn h

theorem slotZ_irrefl (F : Func) : ¬ SlotZ F F := by
  rintro (⟨n, p, J₀, J, m, w, h1, h2, h3, h4⟩ | ⟨n, q₀, q, m, w, h1, h2, h3, h4⟩)
  · rw [h1] at h2
    injection h2 with h2
    subst h2
    rw [h3] at h4
    injection h4 with h4
    cases h4
  · rw [h1] at h2
    injection h2 with h2
    subst h2
    rw [h3] at h4
    cases h4

theorem clearOn_pos {G : Func} (L : List Nat) {n : Nat} {J : Instr}
    (hn : G.insts[n]? = some J) :
    ∃ J', (clearFlagsOn G L).insts[n]? = some J' ∧ J'.operands = J.operands := by
  refine ⟨(fun I => if I.id ∈ L then I.dropFlags else I) J, ?_, ?_⟩
  · show (G.insts.map _)[n]? = _
    rw [List.getElem?_map, hn]
    rfl
  · exact (flagOnly_clearOn L).operandsEq J

theorem replace_pos {H : Func} {j : Nat} (w : Nat) {n p : Nat} {J : Instr}
    (hn : H.insts[n]? = some J) (hp : J.operands[p]? = some (Val.instr j)) :
    ∃ J', (replaceNonMetadataUsesWith H j (Val.const w 0)).insts[n]? = some J' ∧
      J'.operands[p]? = some (Val.const w 0) := by
  refine ⟨{ J with operands := J.operands.map (substVal j (Val.const w 0)) }, ?_, ?_⟩
  · show (H.insts.map _)[n]? = _
    rw [List.getElem?_map, hn]
    rfl
  · show (J.operands.map (substVal j (Val.const w 0)))[p]? = some (Val.const w 0)
    rw [List.getElem?_map, hp]
    show some (substVal j (Val.const w 0) (Val.instr j)) = some (Val.const w 0)
    unfold substVal
    rw [if_pos rfl]

theorem replace_pos_oth {H : Func} {j : Nat} (w : Nat) {n : Nat} {q : Nat × Val}
    (hn : H.otherUsers[n]? = some q) (he : q.2 = Val.instr j) :
    ∃ q', (replaceNonMetadataUsesWith H j (Val.const w 0)).otherUsers[n]? = some q' ∧
      q'.2 = Val.const w 0 := by
  refine ⟨(q.1, substVal j (Val.const w 0) q.2), ?_, ?_⟩
  · show (H.otherUsers.map _)[n]? = _
    rw [List.getElem?_map, hn]
    rfl
  · show substVal j (Val.const w 0) q.2 = Val.const w 0
    rw [he]
    unfold substVal
    rw [if_pos rfl]

/-- Firing the zero replacement on an instruction that still has a use
produces a zeroed-slot witness against the original function (given
positional slot tracking and no prior witness). -/
theorem slotZ_of_fire {F G : Func} {DB : DemandedBits} {j : Nat} (w : Nat)
    (hsh : ShapeZ F G) (hnz : ¬ SlotZ F G)
    (hu : hasInstrUse G j ∨ hasInstrUse F j) :
    SlotZ F (replaceNonMetadataUsesWith (clearAssumptionsOfUsers G DB j) j
      (Val.const w 0)) := by
  have hpos : (∃ n p : Nat, ∃ J₀ J : Instr,
      F.insts[n]? = some J₀ ∧ G.insts[n]? = some J ∧
      J₀.operands[p]? = some (Val.instr j) ∧ J.operands[p]? = some (Val.instr j)) ∨
      (∃ n : Nat, ∃ q₀ q : Nat × Val,
      F.otherUsers[n]? = some q₀ ∧ G.otherUsers[n]? = some q ∧
      q₀.2 = Val.instr j ∧ q.2 = Val.instr j) := by
    rcases hu with hu | hu
    · rcases hu with ⟨W, hW, ho⟩ | ⟨q, hq, he⟩
      · obtain ⟨n, hn⟩ := exists_getElem_some_of_mem hW
        obtain ⟨p, hp⟩ := exists_getElem_some_of_mem ho
        obtain ⟨W₀, hn₀, hrel⟩ := forall2_getElem_right hsh.1 hn
        obtain ⟨a, hp₀, hsz⟩ := forall2_getElem_right hrel hp
        rcases hsz with hsz | ⟨w', hsz⟩
        · exact Or.inl ⟨n, p, W₀, W, hn₀, hn, by rw [hp₀, ← hsz], hp⟩
        · cases hsz
      · obtain ⟨n, hn⟩ := exists_getElem_some_of_mem hq
        obtain ⟨q₀, hn₀, hrel⟩ := forall2_getElem_right hsh.2 hn
        rcases hrel.2 with hsz | ⟨w', hsz⟩
        · exact Or.inr ⟨n, q₀, q, hn₀, hn, by rw [← hsz]; exact he, he⟩
        · rw [he] at hsz
          cases hsz
    · rcases hu with ⟨W₀, hW₀, ho⟩ | ⟨q₀, hq₀, he⟩
      · obtain ⟨n, hn₀⟩ := exists_getElem_some_of_mem hW₀
        obtain ⟨p, hp₀⟩ := exists_getElem_some_of_mem ho
        obtain ⟨W, hn, hrel⟩ := forall2_getElem_left hsh.1 hn₀
        obtain ⟨b, hp, hsz⟩ := forall2_getElem_left hrel hp₀
        rcases hsz with hsz | ⟨w', hsz⟩
        · exact Or.inl ⟨n, p, W₀, W, hn₀, hn, hp₀, by rw [hp, hsz]⟩
        · exact absurd
            (Or.inl ⟨n, p, W₀, W, j, w', hn₀, hn, hp₀, by rw [hp, hsz]⟩) hnz
      · obtain ⟨n, hn₀⟩ := exists_getElem_some_of_mem hq₀
        obtain ⟨q, hn, hrel⟩ := forall2_getElem_left hsh.2 hn₀
        rcases hrel.2 with hsz | ⟨w', hsz⟩
        · exact Or.inr ⟨n, q₀, q, hn₀, hn, he, by rw [hsz]; exact he⟩
        · exact absurd (Or.inr ⟨n, q₀, q, j, w', hn₀, hn, he, hsz⟩) hnz
  rw [clearAssumptions_F_eq]
  rcases hpos with ⟨n, p, J₀, J, hn₀, hn, hp₀, hp⟩ | ⟨n, q₀, q, hn₀, hn, he₀, he⟩
  · obtain ⟨J1, hn1, hops1⟩ := clearOn_pos (clearAssumptionsRun G DB j).visited hn
    obtain ⟨J2, hn2, hp2⟩ := replace_pos w hn1 (by rw [hops1]; exact hp)
    exact Or.inl ⟨n, p, J₀, J2, j, w, hn₀, hn2, hp₀, hp2⟩
  · have hn' : (clearFlagsOn G (clearAssumptionsRun G DB j).visited).otherUsers[n]?
        = some q := hn
    obtain ⟨q2, hn2, he2⟩ := replace_pos_oth w hn' he
    exact Or.inr ⟨n, q₀, q2, j, w, hn₀, hn2, he₀, he2⟩

theorem eraseQueue_length_lt {G : Func} {q : List Nat} {J : Instr}
    (hJ : J ∈ G.insts) (hq : J.id ∈ q) :
    (eraseQueue G q).insts.length < G.insts.length := by
  rw [eraseQueue_insts]
  exact length_filter_lt_of_mem hJ (by simp [hq])

/-- Invariant of the scan for the change-flag claim: the function is tracked,
every queued id is an instruction id of the original function, while nothing
has been queued every use slot is positionally unchanged-or-zeroed, and a
raised change flag is backed by a queued (hence later erased) instruction or
by a zeroed use slot. -/
def C7Inv (F : Func) (s : ScanState) : Prop :=
  Tracks F s.F ∧
  (∀ x ∈ s.queue, x ∈ instIds F) ∧
  (s.queue = [] → ShapeZ F s.F) ∧
  (s.changed = true → s.queue ≠ [] ∨ SlotZ F s.F)

theorem c7_step (F : Func) (DB : DemandedBits)
    (hv : ∀ V ∈ F.insts, useEmptyB F V.id = true → V.sideEffects = false →
      DB.dead V.id = true)
    {s : ScanState} (j : Nat) (inv : C7Inv F s) : C7Inv F (processInst DB s j) := by
  obtain ⟨hT, hQ, hSh, hCh⟩ := inv
  cases hg : getInst s.F j with
  | none =>
    rw [processInst_of_none hg]
    exact ⟨hT, hQ, hSh, hCh⟩
  | some K =>
    by_cases hsk : K.sideEffects = true ∧ useEmptyB s.F j = true
    · rw [processInst_of_skip hg hsk.1 hsk.2]
      exact ⟨hT, hQ, hSh, hCh⟩
    · rw [processInst_of_run hg hsk]
      have hjI : j ∈ instIds F := by
        have hKI : K.id ∈ instIds s.F := List.mem_map.mpr ⟨K, getInst_mem hg, rfl⟩
        rw [getInst_id hg, tracks_instIds hT] at hKI
        exact hKI
      cases hd : DB.dead j with
      | true =>
        rw [deadStep_of_dead hd]
        have hq' : (trivStep DB s j K).queue ++ [j] ≠ [] := by simp
        refine ⟨tracks_drop (trivStep_tracks hT), ?_, ?_, ?_⟩
        · intro x hx
          rcases List.mem_append.mp hx with hx | hx
          · rw [trivStep_queue] at hx
            exact hQ x hx
          · rcases List.mem_cons.mp hx with hx | hx
            · exact hx ▸ hjI
            · cases hx
        · intro hqe
          exact absurd hqe hq'
        · intro _
          exact Or.inl hq'
      | false =>
        rw [deadStep_of_alive hd]
        cases hKint : K.intTy with
        | false =>
          rw [trivStep_of_nonint hKint]
          exact ⟨hT, hQ, hSh, hCh⟩
        | true =>
          by_cases hm : getDemandedBits DB K = 0
          · rw [trivStep_of_fire hKint hm]
            refine ⟨tracks_replace (tracks_clearAssumptions hT), hQ, ?_, ?_⟩
            · intro hqe
              exact shapeZ_replace (shapeZ_clearAssumptions (hSh hqe))
            · intro _
              by_cases hqe : s.queue = []
              · refine Or.inr ?_
                have hsh := hSh hqe
                by_cases hz : SlotZ F s.F
                · exact slotZ_replace (slotZ_clearAssumptions hz)
                · refine slotZ_of_fire K.width hsh hz ?_
                  obtain ⟨J₀, hJ₀, hJid, hJint, hJw, hJse, hJid'⟩ :=
                    tracked_inst_back hT hg
                  by_cases hseb : J₀.sideEffects = true
                  · left
                    have hKse : K.sideEffects = true := by
                      rw [hJse]
                      exact hseb
                    have hueb : useEmptyB s.F j ≠ true := fun hc => hsk ⟨hKse, hc⟩
                    have hnn : ¬ ¬ hasInstrUse s.F j := by
                      intro hc
                      exact hueb (useEmptyB_iff_not_hasInstrUse.mpr hc)
                    exact not_not.mp hnn
                  · right
                    have hse0 : J₀.sideEffects = false := by
                      cases hc : J₀.sideEffects with
                      | false => rfl
                      | true => exact absurd hc hseb
                    have hue0 : useEmptyB F J₀.id ≠ true := by
                      intro hc
                      have hdj := hv J₀ hJ₀ hc hse0
                      rw [hJid] at hdj
                      rw [hdj] at hd
                      cases hd
                    rw [hJid] at hue0
                    have hnn : ¬ ¬ hasInstrUse F j := by
                      intro hc
                      exact hue0 (useEmptyB_iff_not_hasInstrUse.mpr hc)
                    exact not_not.mp hnn
              · exact Or.inl hqe
          · rw [trivStep_of_livemask hKint hm]
            exact ⟨hT, hQ, hSh, hCh⟩

/-- C7: the scan returns true if and only if it mutated the function;
equivalently a false return leaves the instruction list, use-def edges and
flags exactly as on entry, and a true return certifies a real change.  The
forward direction relies on the spec-modelled validity of the oracle (a
use-empty instruction without side effects is fully dead), under which the
change flag raised by the zero-demanded branch is always backed by a real
replacement or by a real erasure. -/
theorem bdce_C7_change_iff (F : Func) (DB : DemandedBits)
    (hval : oracleValidB F DB = true) :
    (bitTrackingDCE F DB).2 = true ↔ (bitTrackingDCE F DB).1 ≠ F := by
  have hv := (oracleValid_spec hval).1
  constructor
  · intro hch
    have hinv : C7Inv F (bdceScan DB F) :=
      foldl_pres DB (fun s j h => c7_step F DB hv j h) (instIds F)
        { F := F, queue := [], changed := false, log := [] }
        ⟨tracks_refl F, fun x hx => absurd hx (List.not_mem_nil x),
          fun _ => shapeZ_refl F, fun hc => Bool.noConfusion hc⟩
    obtain ⟨hT, hQ, hSh, hCh⟩ := hinv
    have hch' : (bdceScan DB F).changed = true := hch
    have hFeq : (bitTrackingDCE F DB).1
        = eraseQueue (bdceScan DB F).F (bdceScan DB F).queue := rfl
    intro heq
    by_cases hqe : (bdceScan DB F).queue = []
    · rcases hCh hch' with hq | hz
      · exact hq hqe
      · have hF' : (bitTrackingDCE F DB).1 = (bdceScan DB F).F := by
          rw [hFeq, hqe, eraseQueue_nil]
        rw [hF'] at heq
        rw [heq] at hz
        exact slotZ_irrefl F hz
    · obtain ⟨x, hx⟩ := List.exists_mem_of_ne_nil _ hqe
      have hxI : x ∈ instIds (bdceScan DB F).F := by
        rw [tracks_instIds hT]
        exact hQ x hx
      rcases List.mem_map.mp hxI with ⟨J, hJ, hJid⟩
      have hlt := eraseQueue_length_lt hJ (hJid ▸ hx)
      have hlen : F.insts.length = (bdceScan DB F).F.insts.length :=
        List.Forall₂.length_eq hT.1
      rw [hFeq] at heq
      rw [heq] at hlt
      omega
  · intro hne
    cases hc : (bitTrackingDCE F DB).2 with
    | true => rfl
    | false => exact absurd (bdceRun_false_unchanged hc) hne

/-- Witness for C7 at a concrete input: a valid all-dead oracle on a
single-instruction function; the pass returns true and the theorem certifies
the mutation (the instruction is erased). -/
theorem bdce_C7_change_iff_witness :
    oracleValidB exF7 exDB2 = true ∧
    (bitTrackingDCE exF7 exDB2).2 = true ∧ (bitTrackingDCE exF7 exDB2).1 ≠ exF7 :=
  ⟨by decide, by decide,
    (bdce_C7_change_iff exF7 exDB2 (by decide)).mp (by decide)⟩

/-! ## The zero-trivialization claim (C1) -/

theorem mem_of_getElem_some {l : List Val} {n : Nat} {a : Val} (h : l[n]? = some a) :
    a ∈ l := by
  rw [List.getElem?_eq_some] at h
  obtain ⟨hn, he⟩ := h
  exact he ▸ List.getElem_mem hn

theorem forall2_map_right2 {P Q : Instr → Instr → Prop} {l₀ l : List Instr}
    (h : List.Forall₂ P l₀ l) (g : Instr → Instr) (hg : ∀ a b, P a b → Q a (g b)) :
    List.Forall₂ Q l₀ (l.map g) := by
  induction h with
  | nil => exact List.Forall₂.nil
  | cons hab _ ih => exact List.Forall₂.cons (hg _ _ hab) ih

theorem forall2_imp_mem {P Q : Instr → Instr → Prop} {l₀ l : List Instr}
    (h : List.Forall₂ P l₀ l) (himp : ∀ a b, b ∈ l → P a b → Q a b) :
    List.Forall₂ Q l₀ l := by
  induction h with
  | nil => exact List.Forall₂.nil
  | @cons a b l₀' l' hab _ ih =>
    refine List.Forall₂.cons (himp a b (List.mem_cons_self _ _) hab) (ih ?_)
    intro a' b' hb' hP
    exact himp a' b' (List.mem_cons_of_mem _ hb') hP

/-- Positional relation before instruction `i` is scanned: each instruction
keeps (or drops wholesale) its operand slots, and a slot that originally held
the value of `i` still holds it. -/
def C1Rel (i : Nat) (J₀ J : Instr) : Prop :=
  J.id = J₀.id ∧ (J.operands = [] ∨
    (J.operands.length = J₀.operands.length ∧
     ∀ p : Nat, J₀.operands[p]? = some (Val.instr i) →
       J.operands[p]? = some (Val.instr i)))

/-- Positional relation after instruction `i` is scanned: a slot that
originally held the value of `i` now holds the zero constant of width `w`
(unless the whole operand list was dropped). -/
def C1RelZ (i w : Nat) (J₀ J : Instr) : Prop :=
  J.id = J₀.id ∧ (J.operands = [] ∨
    (J.operands.length = J₀.operands.length ∧
     ∀ p : Nat, J₀.operands[p]? = some (Val.instr i) →
       J.operands[p]? = some (Val.const w 0)))

def PreZ (i : Nat) (F₀ F : Func) : Prop := List.Forall₂ (C1Rel i) F₀.insts F.insts

def PostZ (i w : Nat) (F₀ F : Func) : Prop :=
  List.Forall₂ (C1RelZ i w) F₀.insts F.insts

theorem preZ_refl (i : Nat) (F : Func) : PreZ i F F :=
  forall2_refl_inst (fun _ => ⟨rfl, Or.inr ⟨rfl, fun _ h => h⟩⟩) F.insts

theorem c1rel_flagOnly {g : Instr → Instr} (hg : FlagOnly g) {i : Nat} {a b : Instr}
    (h : C1Rel i a b) : C1Rel i a (g b) := by
  obtain ⟨h1, h2⟩ := h
  refine ⟨(hg.idEq b).trans h1, ?_⟩
  rw [hg.operandsEq b]
  exact h2

theorem c1relz_flagOnly {g : Instr → Instr} (hg : FlagOnly g) {i w : Nat} {a b : Instr}
    (h : C1RelZ i w a b) : C1RelZ i w a (g b) := by
  obtain ⟨h1, h2⟩ := h
  refine ⟨(hg.idEq b).trans h1, ?_⟩
  rw [hg.operandsEq b]
  exact h2

theorem c1rel_rep {i v w' : Nat} (hne : ¬ v = i) {a b : Instr} (h : C1Rel i a b) :
    C1Rel i a { b with operands := b.operands.map (substVal v (Val.const w' 0)) } := by
  obtain ⟨h1, h2⟩ := h
  refine ⟨h1, ?_⟩
  rcases h2 with h2 | ⟨hlen, himp⟩
  · exact Or.inl (by rw [h2]; rfl)
  · refine Or.inr ⟨by rw [List.length_map]; exact hlen, ?_⟩
    intro p hp
    show (b.operands.map (substVal v (Val.const w' 0)))[p]? = some (Val.instr i)
    rw [List.getElem?_map, himp p hp]
    show some (substVal v (Val.const w' 0) (Val.instr i)) = some (Val.instr i)
    unfold substVal
    rw [if_neg (by intro hc; injection hc with hc; exact hne hc.symm)]

theorem c1relz_rep {i w v w' : Nat} {a b : Instr} (h : C1RelZ i w a b) :
    C1RelZ i w a { b with operands := b.operands.map (substVal v (Val.const w' 0)) } := by
  obtain ⟨h1, h2⟩ := h
  refine ⟨h1, ?_⟩
  rcases h2 with h2 | ⟨hlen, himp⟩
  · exact Or.inl (by rw [h2]; rfl)
  · refine Or.inr ⟨by rw [List.length_map]; exact hlen, ?_⟩
    intro p hp
    show (b.operands.map (substVal v (Val.const w' 0)))[p]? = some (Val.const w 0)
    rw [List.getElem?_map, himp p hp]
    show some (substVal v (Val.const w' 0) (Val.const w 0)) = some (Val.const w 0)
    unfold substVal
    rw [if_neg (by intro hc; cases hc)]

theorem c1rel_drop {i j : Nat} {a b : Instr} (h : C1Rel i a b) :
    C1Rel i a (if b.id = j then { b with operands := [] } else b) := by
  by_cases hid : b.id = j
  · rw [if_pos hid]
    exact ⟨h.1, Or.inl rfl⟩
  · rw [if_neg hid]
    exact h

theorem c1relz_drop {i w j : Nat} {a b : Instr} (h : C1RelZ i w a b) :
    C1RelZ i w a (if b.id = j then { b with operands := [] } else b) := by
  by_cases hid : b.id = j
  · rw [if_pos hid]
    exact ⟨h.1, Or.inl rfl⟩
  · rw [if_neg hid]
    exact h

theorem preZ_clearAssumptions {i : Nat} {F₀ F : Func} {DB : DemandedBits} {v : Nat}
    (h : PreZ i F₀ F) : PreZ i F₀ (clearAssumptionsOfUsers F DB v) := by
  rw [clearAssumptions_F_eq]
  exact forall2_map_right2 h _ (fun _ _ hab => c1rel_flagOnly (flagOnly_clearOn _) hab)

theorem postZ_clearAssumptions {i w : Nat} {F₀ F : Func} {DB : DemandedBits} {v : Nat}
    (h : PostZ i w F₀ F) : PostZ i w F₀ (clearAssumptionsOfUsers F DB v) := by
  rw [clearAssumptions_F_eq]
  exact forall2_map_right2 h _ (fun _ _ hab => c1relz_flagOnly (flagOnly_clearOn _) hab)

theorem preZ_replace {i v w' : Nat} {F₀ F : Func} (hne : ¬ v = i) (h : PreZ i F₀ F) :
    PreZ i F₀ (replaceNonMetadataUsesWith F v (Val.const w' 0)) :=
  forall2_map_right2 h _ (fun _ _ hab => c1rel_rep hne hab)

theorem postZ_replace {i w v w' : Nat} {F₀ F : Func} (h : PostZ i w F₀ F) :
    PostZ i w F₀ (replaceNonMetadataUsesWith F v (Val.const w' 0)) :=
  forall2_map_right2 h _ (fun _ _ hab => c1relz_rep hab)

theorem preZ_drop {i j : Nat} {F₀ F : Func} (h : PreZ i F₀ F) :
    PreZ i F₀ (dropAllReferences F j) :=
  forall2_map_right2 h _ (fun _ _ hab => c1rel_drop hab)

theorem postZ_drop {i w j : Nat} {F₀ F : Func} (h : PostZ i w F₀ F) :
    PostZ i w F₀ (dropAllReferences F j) :=
  forall2_map_right2 h _ (fun _ _ hab => c1relz_drop hab)

/-- Firing the replacement on `i` turns the pre-relation into the
post-relation: every original use slot of `i` now holds the zero constant. -/
theorem postZ_of_preZ_replace {i w : Nat} {F₀ F : Func} (h : PreZ i F₀ F) :
    PostZ i w F₀ (replaceNonMetadataUsesWith F i (Val.const w 0)) := by
  apply forall2_map_right2 h
    (fun J => { J with operands := J.operands.map (substVal i (Val.const w 0)) })
  intro a b hab
  obtain ⟨h1, h2⟩ := hab
  refine ⟨h1, ?_⟩
  rcases h2 with h2 | ⟨hlen, himp⟩
  · exact Or.inl (by rw [h2]; rfl)
  · refine Or.inr ⟨by rw [List.length_map]; exact hlen, ?_⟩
    intro p hp
    show (b.operands.map (substVal i (Val.const w 0)))[p]? = some (Val.const w 0)
    rw [List.getElem?_map, himp p hp]
    show some (substVal i (Val.const w 0) (Val.instr i)) = some (Val.const w 0)
    unfold substVal
    rw [if_pos rfl]

theorem c1_pre_step {F : Func} {DB : DemandedBits} {s : ScanState} {i j : Nat}
    (hji : ¬ j = i) (hT : Tracks F s.F) (hP : PreZ i F s.F) :
    Tracks F (processInst DB s j).F ∧ PreZ i F (processInst DB s j).F := by
  refine ⟨processInst_tracks hT, ?_⟩
  cases hg : getInst s.F j with
  | none =>
    rw [processInst_of_none hg]
    exact hP
  | some K =>
    by_cases hsk : K.sideEffects = true ∧ useEmptyB s.F j = true
    · rw [processInst_of_skip hg hsk.1 hsk.2]
      exact hP
    · rw [processInst_of_run hg hsk]
      have h1 : PreZ i F (trivStep DB s j K).F := by
        cases hKint : K.intTy with
        | false =>
          rw [trivStep_of_nonint hKint]
          exact hP
        | true =>
          by_cases hm : getDemandedBits DB K = 0
          · rw [trivStep_of_fire hKint hm]
            exact preZ_replace hji (preZ_clearAssumptions hP)
          · rw [trivStep_of_livemask hKint hm]
            exact hP
      cases hd : DB.dead j with
      | false =>
        rw [deadStep_of_alive hd]
        exact h1
      | true =>
        rw [deadStep_of_dead hd]
        exact preZ_drop h1

theorem c1_post_step {F : Func} {DB : DemandedBits} {s : ScanState} {i w j : Nat}
    (hT : Tracks F s.F) (hP : PostZ i w F s.F) (hU : ¬ hasInstrUse s.F i) :
    Tracks F (processInst DB s j).F ∧ PostZ i w F (processInst DB s j).F ∧
      ¬ hasInstrUse (processInst DB s j).F i := by
  refine ⟨processInst_tracks hT, ?_, fun hc => hU (processInst_hasUse_back hc)⟩
  cases hg : getInst s.F j with
  | none =>
    rw [processInst_of_none hg]
    exact hP
  | some K =>
    by_cases hsk : K.sideEffects = true ∧ useEmptyB s.F j = true
    · rw [processInst_of_skip hg hsk.1 hsk.2]
      exact hP
    · rw [processInst_of_run hg hsk]
      have h1 : PostZ i w F (trivStep DB s j K).F := by
        cases hKint : K.intTy with
        | false =>
          rw [trivStep_of_nonint hKint]
          exact hP
        | true =>
          by_cases hm : getDemandedBits DB K = 0
          · rw [trivStep_of_fire hKint hm]
            exact postZ_replace (postZ_clearAssumptions hP)
          · rw [trivStep_of_livemask hKint hm]
            exact hP
      cases hd : DB.dead j with
      | false =>
        rw [deadStep_of_alive hd]
        exact h1
      | true =>
        rw [deadStep_of_dead hd]
        exact postZ_drop h1

theorem c1_transition (F : Func) (DB : DemandedBits) (I : Instr) (hwf : wfIds F)
    (hmem : I ∈ F.insts) (hint : I.intTy = true) (hmask : getDemandedBits DB I = 0)
    {s : ScanState} (hT : Tracks F s.F) (hP : PreZ I.id F s.F) :
    Tracks F (processInst DB s I.id).F ∧
      PostZ I.id I.width F (processInst DB s I.id).F ∧
      ¬ hasInstrUse (processInst DB s I.id).F I.id := by
  obtain ⟨J, hgJ, hrel⟩ := tracks_getInst hwf hT hmem
  by_cases hsk : J.sideEffects = true ∧ useEmptyB s.F I.id = true
  · rw [processInst_of_skip hgJ hsk.1 hsk.2]
    have hU : ¬ hasInstrUse s.F I.id := useEmptyB_iff_not_hasInstrUse.mp hsk.2
    refine ⟨hT, ?_, hU⟩
    apply forall2_imp_mem hP
    intro a b hb hab
    obtain ⟨h1, h2⟩ := hab
    refine ⟨h1, ?_⟩
    rcases h2 with h2 | ⟨hlen, himp⟩
    · exact Or.inl h2
    · refine Or.inr ⟨hlen, ?_⟩
      intro p hp
      exact absurd (Or.inl ⟨b, hb, mem_of_getElem_some (himp p hp)⟩) hU
  · rw [processInst_of_run hgJ hsk]
    have hJint : J.intTy = true := by
      rw [hrel.2.1]
      exact hint
    have hJmask : getDemandedBits DB J = 0 := by
      show DB.demanded J.id % 2 ^ J.width = 0
      rw [hrel.1, hrel.2.2.1]
      exact hmask
    have hw : J.width = I.width := hrel.2.2.1
    have h1 : PostZ I.id I.width F (trivStep DB s I.id J).F ∧
        ¬ hasInstrUse (trivStep DB s I.id J).F I.id := by
      rw [trivStep_of_fire hJint hJmask]
      constructor
      · show PostZ I.id I.width F
          (replaceNonMetadataUsesWith (clearAssumptionsOfUsers s.F DB I.id) I.id
            (Val.const J.width 0))
        rw [hw]
        exact postZ_of_preZ_replace (preZ_clearAssumptions hP)
      · exact not_hasInstrUse_replace_self _ _ _
    cases hd : DB.dead I.id with
    | false =>
      rw [deadStep_of_alive hd]
      exact ⟨trivStep_tracks hT, h1.1, h1.2⟩
    | true =>
      rw [deadStep_of_dead hd]
      exact ⟨tracks_drop (trivStep_tracks hT), postZ_drop h1.1,
        fun hc => h1.2 (hasInstrUse_drop_back hc)⟩

theorem c1_pre_fold (F : Func) (DB : DemandedBits) (i : Nat) :
    ∀ (ids : List Nat) (s : ScanState), i ∉ ids → Tracks F s.F → PreZ i F s.F →
      Tracks F (List.foldl (processInst DB) s ids).F ∧
        PreZ i F (List.foldl (processInst DB) s ids).F := by
  intro ids
  induction ids with
  | nil =>
    intro s _ hT hP
    exact ⟨hT, hP⟩
  | cons a tl ih =>
    intro s hni hT hP
    rw [List.foldl_cons]
    have hne : ¬ a = i := fun he => hni (he ▸ List.mem_cons_self _ _)
    obtain ⟨hT', hP'⟩ := c1_pre_step hne hT hP
    exact ih _ (fun hc => hni (List.mem_cons_of_mem _ hc)) hT' hP'

theorem c1_post_fold (F : Func) (DB : DemandedBits) (i w : Nat) :
    ∀ (ids : List Nat) (s : ScanState), Tracks F s.F → PostZ i w F s.F →
      ¬ hasInstrUse s.F i →
      Tracks F (List.foldl (processInst DB) s ids).F ∧
        PostZ i w F (List.foldl (processInst DB) s ids).F ∧
        ¬ hasInstrUse (List.foldl (processInst DB) s ids).F i := by
  intro ids
  induction ids with
  | nil =>
    intro s hT hP hU
    exact ⟨hT, hP, hU⟩
  | cons a tl ih =>
    intro s hT hP hU
    rw [List.foldl_cons]
    obtain ⟨hT', hP', hU'⟩ := c1_post_step hT hP hU
    exact ih _ hT' hP' hU'

/-- C1: for an integer instruction whose demanded mask is all dead and which
has at least one use, after the pass no remaining instruction uses its value,
and every surviving operand slot that originally held that value now holds
the zero constant of the instruction's type. -/
theorem bdce_C1_zeroing (F : Func) (DB : DemandedBits) (I : Instr)
    (hwf : wfIds F) (hmem : I ∈ F.insts) (hint : I.intTy = true)
    (hmask : getDemandedBits DB I = 0) (_huse : useEmptyB F I.id = false) :
    (∀ J ∈ (bitTrackingDCE F DB).1.insts, Val.instr I.id ∉ J.operands) ∧
    (∀ J ∈ (bitTrackingDCE F DB).1.insts, ∀ J₀ ∈ F.insts, J₀.id = J.id →
      ∀ p : Nat, p < J.operands.length →
        J₀.operands[p]? = some (Val.instr I.id) →
        J.operands[p]? = some (Val.const I.width 0)) := by
  have hiid : I.id ∈ instIds F := List.mem_map.mpr ⟨I, hmem, rfl⟩
  obtain ⟨pre, post, hsplit⟩ := List.append_of_mem hiid
  have hnd := hwf
  unfold wfIds at hnd
  rw [hsplit, List.nodup_append] at hnd
  have hipre : I.id ∉ pre := fun hc => hnd.2.2 hc (List.mem_cons_self _ _)
  have hscan : bdceScan DB F = List.foldl (processInst DB)
      (processInst DB (List.foldl (processInst DB)
        { F := F, queue := [], changed := false, log := [] } pre) I.id) post := by
    unfold bdceScan
    rw [hsplit, List.foldl_append, List.foldl_cons]
  have hpre := c1_pre_fold F DB I.id pre
    { F := F, queue := [], changed := false, log := [] } hipre (tracks_refl F)
    (preZ_refl I.id F)
  have htr := c1_transition F DB I hwf hmem hint hmask hpre.1 hpre.2
  have hpost := c1_post_fold F DB I.id I.width post _ htr.1 htr.2.1 htr.2.2
  rw [← hscan] at hpost
  obtain ⟨hT, hP, hU⟩ := hpost
  have hFeq : (bitTrackingDCE F DB).1
      = eraseQueue (bdceScan DB F).F (bdceScan DB F).queue := rfl
  constructor
  · intro J hJ hUo
    rw [hFeq] at hJ
    exact hU (Or.inl ⟨J, (mem_eraseQueue.mp hJ).1, hUo⟩)
  · intro J hJ J₀ hJ₀ hid p hplen hp0
    rw [hFeq] at hJ
    have hJs := (mem_eraseQueue.mp hJ).1
    obtain ⟨J₀', hJ₀', hrel⟩ := forall2_mem_right hP J hJs
    have heq : J₀' = J₀ := nodup_id_unique hwf hJ₀' hJ₀ (by rw [← hrel.1, hid])
    rw [heq] at hrel
    rcases hrel.2 with h2 | ⟨_, himp⟩
    · rw [h2] at hplen
      simp at hplen
    · exact himp p hp0

/-- Witness for C1 at a concrete input: instruction 0 of `exF3` is integer
typed with an all-dead mask and one use; after the pass nothing uses it. -/
theorem bdce_C1_witness :
    wfIds exF3 ∧ exI0 ∈ exF3.insts ∧ exI0.intTy = true ∧
    getDemandedBits exDB3 exI0 = 0 ∧ useEmptyB exF3 exI0.id = false ∧
    (∀ J ∈ (bitTrackingDCE exF3 exDB3).1.insts, Val.instr exI0.id ∉ J.operands) :=
  ⟨by unfold wfIds; decide, by decide, by decide, by decide, by decide,
    (bdce_C1_zeroing exF3 exDB3 exI0 (by unfold wfIds; decide) (by decide)
      (by decide) (by decide) (by decide)).1⟩
